import Mathlib

/-!
# Z85 codec (SladeThe/z85): shallow embedding of `z85.go` and `errors.go`

Conventions of the embedding.

* A Go `byte` is a `Fin 256`; a Go `[]byte` value is the `List` of its elements
  (a `nil` slice is the empty list).
* A function that writes into a caller-supplied slice returns the final contents
  of that slice next to its Go return values.
* A re-slice `s = s[k:]` is the tail of the list after `k` elements; what was
  written to the dropped prefix is put back in front of the result, since the
  re-sliced view shares the caller's backing array.
* `Option` at the outside of a result is a Go run-time panic (`none`), which is
  how an index out of range ends a call.
* `uint32` values are `Nat`s; the arithmetic of the decoder wraps with an
  explicit `% 2 ^ 32`.  The encoder's `uint32` values are built from at most
  four bytes and only divided afterwards, so they never wrap.
* `int` values are slice lengths and indices, all non-negative: they are `Nat`s.
  With Go's 64-bit `int`, `len + 4` and `len * 4` stay far below `2 ^ 63`.
-/

namespace Z85

/-- A Go `byte`. -/
abbrev Byte := Fin 256

/-! ## errors.go -/

/-- The four error types of `errors.go`. -/
inductive Z85Error where
  | InsufficientDestinationLengthError (want got : Nat)
  | InvalidEncodedLengthError (n : Nat)
  | InvalidEncodedByteError (b : Byte)
  | InvalidPostfixError (b : Byte)
  deriving DecidableEq, Repr

open Z85Error

/-- What a call of `EncodeTo` or `DecodeTo` leaves behind: the returned `int`,
the returned `error` (`none` is Go's `nil`), and the contents of the destination
slice after the call. -/
structure ToResult where
  n : Nat
  err : Option Z85Error
  dst : List Byte
  deriving DecidableEq, Repr

/-! ## Checked slice access -/

/-- The Go statement `s[i] = b`: a panic when `i` is out of range. -/
def setAt (s : List Byte) (i : Nat) (b : Byte) : Option (List Byte) :=
  if i < s.length then some (s.set i b) else none

/-! ## z85.go: the symbol tables -/

/-- The constant `encoding` as the string of the source. -/
def encodingString : String :=
  "0123456789abcdefghijklmnopqrstuvwxyzABCDEFGHIJKLMNOPQRSTUVWXYZ.-:+=^!/*?&<>()[]\x7b\x7d@%$#"

/-- The constant `encoding` as bytes (every character is ASCII). -/
def encoding : List Byte :=
  encodingString.toList.map (fun c => Fin.ofNat c.toNat)

/-- The expression `encoding[i]`. -/
def encodingAt (i : Nat) : Option Byte := encoding[i]?

/-- The table `decoding` at its declaration: `make([]byte, math.MaxUint8)`,
that is 255 zero bytes. -/
def decodingMake : List Byte := List.replicate 255 0

/-- The first loop of `init`: every entry becomes `math.MaxUint8`. -/
def initFill (t : List Byte) : List Byte := t.map (fun _ => (255 : Byte))

/-- The second loop of `init`, `for i, r := range encoding { decoding[r] = byte(i) }`,
from index `i` on. -/
def initInverse : List Byte → Nat → List Byte → Option (List Byte)
  | [], _, t => some t
  | r :: rs, i, t => (setAt t r.val (Fin.ofNat i)).bind (initInverse rs (i + 1))

/-- The table `decoding` after `init` has run. -/
def decodingInit : Option (List Byte) := initInverse encoding 0 (initFill decodingMake)

/-- The table `decoding` as the codec sees it (`init` does not panic, see
`decodingInit_isSome`). -/
def decoding : List Byte := decodingInit.getD []

/-- The expression `decoding[r]` for a byte `r`: a panic when `r` is not an
index of the table. -/
def decodingAt (r : Byte) : Option Byte := decoding[r.val]?

/-! ## z85.go: length arithmetic -/

/-- The function `EncodedLen` (z85.go, lines 61-68). -/
def EncodedLen (plain : List Byte) : Nat :=
  let n := plain.length
  if n = 0 then 0 else (n + 4) / 4 * 5

/-- The function `DecodedCap` (z85.go, lines 73-83): the returned `int` and `error`. -/
def DecodedCap (encoded : List Byte) : Nat × Option Z85Error :=
  let n := encoded.length
  if n = 0 then (0, none)
  else if n % 5 ≠ 0 then (0, some (InvalidEncodedLengthError n))
  else (n * 4 / 5, none)

/-! ## z85.go: EncodeTo -/

/-- The call `binary.BigEndian.Uint32(plain)` on the first four bytes of a slice:
`uint32(b[3]) | uint32(b[2])<<8 | uint32(b[1])<<16 | uint32(b[0])<<24`. -/
def Uint32 (b0 b1 b2 b3 : Byte) : Nat :=
  b3.val ||| b2.val <<< 8 ||| b1.val <<< 16 ||| b0.val <<< 24

/-- The five assignments `encoded[4] = encoding[v%85]; v /= 85; ...;
encoded[0] = encoding[v%85]` of the main loop of `EncodeTo`. -/
def putGroup (encoded : List Byte) (v : Nat) : Option (List Byte) := do
  let encoded ← setAt encoded 4 (← encodingAt (v % 85))
  let v := v / 85
  let encoded ← setAt encoded 3 (← encodingAt (v % 85))
  let v := v / 85
  let encoded ← setAt encoded 2 (← encodingAt (v % 85))
  let v := v / 85
  let encoded ← setAt encoded 1 (← encodingAt (v % 85))
  let v := v / 85
  let encoded ← setAt encoded 0 (← encodingAt (v % 85))
  pure encoded

/-- The closing loop `for i := 4; i >= 0; i-- { encoded[i] = encoding[v%85]; v /= 85 }`
of `EncodeTo`; `k` is `i + 1`. -/
def putMarker : Nat → List Byte → Nat → Option (List Byte)
  | 0, encoded, _ => some encoded
  | k + 1, encoded, v => do
    let encoded ← setAt encoded k (← encodingAt (v % 85))
    putMarker k encoded (v / 85)

/-- The value `v` chosen by `switch len(plain)` for the remainder of the plain
slice (fewer than four bytes once the main loop is over). -/
def markerValue : List Byte → Nat
  | [] => 0 ||| 0 <<< 8 ||| 0 <<< 16 ||| 1 <<< 24
  | [p0] => 0 ||| 0 <<< 8 ||| 1 <<< 16 ||| p0.val <<< 24
  | [p0, p1] => 0 ||| 1 <<< 8 ||| p1.val <<< 16 ||| p0.val <<< 24
  | [p0, p1, p2] => 1 ||| p2.val <<< 8 ||| p1.val <<< 16 ||| p0.val <<< 24
  | _ => 0

/-- The body of `EncodeTo` after its two guards: the loop `for len(plain) >= 4`
and then the marker group.  The result is the destination slice after all
writes. -/
def encodeLoop : List Byte → List Byte → Option (List Byte)
  | p0 :: p1 :: p2 :: p3 :: plain, encoded => do
    let v := Uint32 p0 p1 p2 p3
    let encoded ← putGroup encoded v
    let rest ← encodeLoop plain (encoded.drop 5)
    pure (encoded.take 5 ++ rest)
  | [], encoded => putMarker 5 encoded (markerValue [])
  | [p0], encoded => putMarker 5 encoded (markerValue [p0])
  | [p0, p1], encoded => putMarker 5 encoded (markerValue [p0, p1])
  | [p0, p1, p2], encoded => putMarker 5 encoded (markerValue [p0, p1, p2])

/-- The function `EncodeTo` (z85.go, lines 88-135). -/
def EncodeTo (plain encoded : List Byte) : Option ToResult :=
  let encodedLen := EncodedLen plain
  if encodedLen = 0 then some ⟨0, none, encoded⟩
  else if encoded.length < encodedLen then
    some ⟨0, some (InsufficientDestinationLengthError encodedLen encoded.length), encoded⟩
  else do
    let dst ← encodeLoop plain encoded
    pure ⟨encodedLen, none, dst⟩

/-- The function `Encode` (z85.go, lines 37-41): a fresh zeroed buffer of `EncodedLen(plain)` bytes, filled by
`EncodeTo`, whose return values are discarded. -/
def Encode (plain : List Byte) : Option (List Byte) := do
  let encoded := List.replicate (EncodedLen plain) (0 : Byte)
  let r ← EncodeTo plain encoded
  pure r.dst

/-! ## z85.go: DecodeTo -/

/-- The call `binary.BigEndian.PutUint32(b, v)`: a panic when `b` has fewer than four
bytes, else `b[0..3]` become the big-endian bytes of `v`. -/
def PutUint32 (b : List Byte) (v : Nat) : Option (List Byte) := do
  if b.length < 4 then none
  let b ← setAt b 0 (Fin.ofNat (v >>> 24))
  let b ← setAt b 1 (Fin.ofNat (v >>> 16))
  let b ← setAt b 2 (Fin.ofNat (v >>> 8))
  let b ← setAt b 3 (Fin.ofNat v)
  pure b

/-- The `uint32` expression `m0*52200625+m1*614125+m2*7225+m3*85+m4`, every
operation wrapping at 32 bits. -/
def groupValue (m0 m1 m2 m3 m4 : Nat) : Nat :=
  ((((m0 * 52200625 % 2 ^ 32 + m1 * 614125 % 2 ^ 32) % 2 ^ 32
    + m2 * 7225 % 2 ^ 32) % 2 ^ 32 + m3 * 85 % 2 ^ 32) % 2 ^ 32 + m4) % 2 ^ 32

/-- The loop `for len(encoded) > 0` of `DecodeTo`.  The result is the error the
loop returned with, if any, and the destination view after the writes. -/
def decodeLoop : List Byte → List Byte → Option (Option Z85Error × List Byte)
  | [], decoded => some (none, decoded)
  | r0 :: r1 :: r2 :: r3 :: r4 :: encoded, decoded => do
    let m0 := (← decodingAt r0).val
    let m1 := (← decodingAt r1).val
    let m2 := (← decodingAt r2).val
    let m3 := (← decodingAt r3).val
    let m4 := (← decodingAt r4).val
    if m0 ||| m1 ||| m2 ||| m3 ||| m4 = 255 then
      if m0 = 255 then pure (some (InvalidEncodedByteError r0), decoded)
      else if m1 = 255 then pure (some (InvalidEncodedByteError r1), decoded)
      else if m2 = 255 then pure (some (InvalidEncodedByteError r2), decoded)
      else if m3 = 255 then pure (some (InvalidEncodedByteError r3), decoded)
      else pure (some (InvalidEncodedByteError r4), decoded)
    else do
      let decoded ← PutUint32 decoded (groupValue m0 m1 m2 m3 m4)
      let (e, rest) ← decodeLoop encoded (decoded.drop 4)
      pure (e, decoded.take 4 ++ rest)
  | _ :: _, _ => none

/-- The marker scan `for i := decodedCap - 1; i >= 0; i--` of `DecodeTo` and the
`return` after it; `k` is `i + 1`.  The result is the returned `int` and
`error`. -/
def scanMarker (plain : List Byte) : Nat → Option (Nat × Option Z85Error)
  | 0 => some (0, some (InvalidPostfixError 0))
  | i + 1 =>
    match plain[i]? with
    | none => none
    | some b =>
      if b = 1 then some (i, none)
      else if b = 0 then scanMarker plain i
      else some (0, some (InvalidPostfixError b))

/-- The function `DecodeTo` (z85.go, lines 142-204). -/
def DecodeTo (encoded plain : List Byte) : Option ToResult :=
  let (decodedCap, errCap) := DecodedCap encoded
  if errCap ≠ none then some ⟨0, errCap, plain⟩
  else if encoded.length = 0 then some ⟨0, none, plain⟩
  else if plain.length < decodedCap then
    some ⟨0, some (InsufficientDestinationLengthError decodedCap plain.length), plain⟩
  else do
    let (e, plain) ← decodeLoop encoded plain
    if e ≠ none then pure ⟨0, e, plain⟩
    else do
      let (n, err) ← scanMarker plain decodedCap
      pure ⟨n, err, plain⟩

/-- The function `Decode` (z85.go, lines 44-58): the returned slice and `error`.
The slice expression `decoded[:n]` panics when `n` exceeds the length. -/
def Decode (encoded : List Byte) : Option (List Byte × Option Z85Error) :=
  let (decodedCap, errCap) := DecodedCap encoded
  if errCap ≠ none ∨ decodedCap = 0 then some ([], errCap)
  else do
    let decoded := List.replicate decodedCap (0 : Byte)
    let r ← DecodeTo encoded decoded
    if r.err ≠ none then pure ([], r.err)
    else if r.n ≤ r.dst.length then pure (r.dst.take r.n, none)
    else none

/-! ## Functions used by the proofs

These are not functions of the source: they name what the source functions compute
(`encodeLoop_eq`, `Encode_eq`, `decodeLoop_encodeRef`, `decodeLoop_valid`), and no
claim is stated with them. -/

/-- The symbol of digit `d`. -/
def sym (d : Nat) : Byte := (encodingAt d).getD 0

/-- The five symbols of a 32-bit value, most significant digit first. -/
def groupSymbols (v : Nat) : List Byte :=
  [sym (v / 85 / 85 / 85 / 85 % 85), sym (v / 85 / 85 / 85 % 85), sym (v / 85 / 85 % 85),
    sym (v / 85 % 85), sym (v % 85)]

/-- The groups `EncodeTo` writes, as a function of the plain bytes. -/
def encodeRef : List Byte → List Byte
  | p0 :: p1 :: p2 :: p3 :: plain => groupSymbols (Uint32 p0 p1 p2 p3) ++ encodeRef plain
  | [] => groupSymbols (markerValue [])
  | [p0] => groupSymbols (markerValue [p0])
  | [p0, p1] => groupSymbols (markerValue [p0, p1])
  | [p0, p1, p2] => groupSymbols (markerValue [p0, p1, p2])

/-- The big-endian bytes of a 32-bit value, as `PutUint32` writes them. -/
def bytesOf (v : Nat) : List Byte :=
  [Fin.ofNat (v >>> 24), Fin.ofNat (v >>> 16), Fin.ofNat (v >>> 8), Fin.ofNat v]

/-- The bytes the decoder's loop writes for `Encode(plain)`: the plain bytes,
the marker byte 1, and zero bytes up to the end of the last block. -/
def paddedPlain : List Byte → List Byte
  | p0 :: p1 :: p2 :: p3 :: plain => p0 :: p1 :: p2 :: p3 :: paddedPlain plain
  | [] => [1, 0, 0, 0]
  | [p0] => [p0, 1, 0, 0]
  | [p0, p1] => [p0, p1, 1, 0]
  | [p0, p1, p2] => [p0, p1, p2, 1]

/-- The output of `Encode`, as a function of the plain bytes: nothing for an empty
input, else the groups of `encodeRef`. -/
def encodeAll (plain : List Byte) : List Byte :=
  if plain.length = 0 then [] else encodeRef plain

/-- A table entry is a digit or the sentinel 255. -/
def IsEntry (m : Nat) : Prop := m < 85 ∨ m = 255

/-- The digit the table `decoding` holds for a symbol (0 where the lookup panics). -/
def dig (s : Byte) : Nat := ((decodingAt s).getD 0).val

/-- The bytes the loop of `DecodeTo` writes for an input of alphabet symbols, as a
function of the symbols. -/
def decodeRef : List Byte → List Byte
  | s0 :: s1 :: s2 :: s3 :: s4 :: rest =>
    bytesOf (groupValue (dig s0) (dig s1) (dig s2) (dig s3) (dig s4)) ++ decodeRef rest
  | _ => []

/-! ## Functions the claims are stated with

The block transform of C16 and the big-endian reading of C16 and C20 follow the
words of the spec, to be compared with what the source functions compute;
`offending` is the condition of C19. -/

/-- Spec wording (C16), block `i` of a plain `p` of length `4k + r`: the four bytes
`p[4i..4i+3]` for `i < k`; else the `r` remainder bytes, then a single byte 1,
then zero bytes. -/
def specBlock (p : List Byte) (i : Nat) : List Byte :=
  if i < p.length / 4 then (p.drop (4 * i)).take 4
  else p.drop (4 * (p.length / 4)) ++ 1 :: List.replicate (3 - p.length % 4) 0

/-- Spec wording (C16): the big-endian unsigned value of a byte sequence. -/
def specBigEndian (bs : List Byte) : Nat :=
  bs.foldl (fun acc b => acc * 256 + b.val) 0

/-- Spec wording (C16): a digit sequence read most significant digit first as a
base-85 number. -/
def specBase85 (ds : List Nat) : Nat :=
  ds.foldl (fun acc d => acc * 85 + d) 0

/-- The test of C19 on a byte: it is outside the alphabet. -/
def offending (r : Byte) : Bool := decide (r ∉ encoding)

/-! ## Arithmetic of one group -/

theorem Uint32_eq (b0 b1 b2 b3 : Byte) :
    Uint32 b0 b1 b2 b3 = b0.val * 2 ^ 24 + b1.val * 2 ^ 16 + b2.val * 2 ^ 8 + b3.val := by
  have h0 := b0.isLt
  have h1 := b1.isLt
  have h2 := b2.isLt
  have h3 := b3.isLt
  unfold Uint32
  simp only [Nat.shiftLeft_eq]
  rw [Nat.lor_comm b3.val, ← Nat.mul_comm (2 ^ 8), ← Nat.mul_add_lt_is_or (by omega)]
  rw [Nat.lor_comm _ (b1.val * 2 ^ 16), ← Nat.mul_comm (2 ^ 16), ← Nat.mul_add_lt_is_or (by omega)]
  rw [Nat.lor_comm _ (b0.val * 2 ^ 24), ← Nat.mul_comm (2 ^ 24), ← Nat.mul_add_lt_is_or (by omega)]
  omega

theorem digits_lor_ne (m0 m1 m2 m3 m4 : Nat) (h0 : m0 < 85) (h1 : m1 < 85) (h2 : m2 < 85)
    (h3 : m3 < 85) (h4 : m4 < 85) : m0 ||| m1 ||| m2 ||| m3 ||| m4 ≠ 255 := by
  have k : ∀ x y : Nat, x < 2 ^ 7 → y < 2 ^ 7 → x ||| y < 2 ^ 7 :=
    fun x y hx hy => Nat.or_lt_two_pow hx hy
  have := k _ _ (k _ _ (k _ _ (k m0 m1 (by omega) (by omega)) (by omega : m2 < 2 ^ 7))
    (by omega : m3 < 2 ^ 7)) (by omega : m4 < 2 ^ 7)
  omega

theorem groupValue_eq_mod (m0 m1 m2 m3 m4 : Nat) :
    groupValue m0 m1 m2 m3 m4
      = (m0 * 52200625 + m1 * 614125 + m2 * 7225 + m3 * 85 + m4) % 2 ^ 32 := by
  simp only [groupValue, Nat.mod_add_mod, Nat.add_mod_mod]

theorem groupValue_digits (v : Nat) (hv : v < 2 ^ 32) :
    groupValue (v / 85 / 85 / 85 / 85 % 85) (v / 85 / 85 / 85 % 85) (v / 85 / 85 % 85)
      (v / 85 % 85) (v % 85) = v := by
  rw [groupValue_eq_mod]
  have e : v / 85 / 85 / 85 / 85 % 85 * 52200625 + v / 85 / 85 / 85 % 85 * 614125
      + v / 85 / 85 % 85 * 7225 + v / 85 % 85 * 85 + v % 85 = v := by omega
  rw [e]
  exact Nat.mod_eq_of_lt hv


/-! ## The symbol tables -/

theorem table_digits : ∀ d : Fin 85,
    encodingAt d.val = some (sym d.val) ∧ decodingAt (sym d.val) = some (Fin.ofNat d.val)
      ∧ sym d.val ∈ encoding := by
  decide!

theorem encodingAt_sym {d : Nat} (h : d < 85) : encodingAt d = some (sym d) :=
  (table_digits ⟨d, h⟩).1

theorem decodingAt_sym {d : Nat} (h : d < 85) : decodingAt (sym d) = some (Fin.ofNat d) :=
  (table_digits ⟨d, h⟩).2.1

theorem sym_mem {d : Nat} (h : d < 85) : sym d ∈ encoding :=
  (table_digits ⟨d, h⟩).2.2

/-! ## The encoder writes `encodeRef` -/

theorem putGroup_cons (e0 e1 e2 e3 e4 : Byte) (tl : List Byte) (v : Nat) :
    putGroup (e0 :: e1 :: e2 :: e3 :: e4 :: tl) v = some (groupSymbols v ++ tl) := by
  simp [putGroup, groupSymbols, encodingAt_sym (Nat.mod_lt _ (by decide : 85 > 0)), setAt]

theorem putMarker_eq (encoded : List Byte) (v : Nat) :
    putMarker 5 encoded v = putGroup encoded v := by
  simp [putMarker, putGroup]

theorem groupSymbols_length (v : Nat) : (groupSymbols v).length = 5 := rfl

theorem encodeRef_length : ∀ plain : List Byte, (encodeRef plain).length = (plain.length / 4 + 1) * 5
  | p0 :: p1 :: p2 :: p3 :: plain => by
    simp [encodeRef, encodeRef_length plain, groupSymbols_length]
    omega
  | [] => by simp [encodeRef, groupSymbols]
  | [_] => by simp [encodeRef, groupSymbols]
  | [_, _] => by simp [encodeRef, groupSymbols]
  | [_, _, _] => by simp [encodeRef, groupSymbols]

theorem exists_cons5 : ∀ (l : List Byte), 5 ≤ l.length →
    ∃ e0 e1 e2 e3 e4 tl, l = e0 :: e1 :: e2 :: e3 :: e4 :: tl
  | e0 :: e1 :: e2 :: e3 :: e4 :: tl, _ => ⟨e0, e1, e2, e3, e4, tl, rfl⟩
  | [], h => by simp at h
  | [_], h => by simp at h
  | [_, _], h => by simp at h
  | [_, _, _], h => by simp at h
  | [_, _, _, _], h => by simp at h

theorem putMarker_long (encoded : List Byte) (v : Nat) (h : 5 ≤ encoded.length) :
    putMarker 5 encoded v = some (groupSymbols v ++ encoded.drop 5) := by
  obtain ⟨e0, e1, e2, e3, e4, tl, rfl⟩ := exists_cons5 encoded h
  simp [putMarker_eq, putGroup_cons]

theorem encodeLoop_eq : ∀ (plain encoded : List Byte),
    (plain.length / 4 + 1) * 5 ≤ encoded.length →
      encodeLoop plain encoded
        = some (encodeRef plain ++ encoded.drop ((plain.length / 4 + 1) * 5))
  | p0 :: p1 :: p2 :: p3 :: plain, encoded, h => by
    have hl : ((p0 :: p1 :: p2 :: p3 :: plain).length / 4 + 1) * 5
        = (plain.length / 4 + 1) * 5 + 5 := by
      simp only [List.length_cons]; omega
    rw [hl] at h ⊢
    obtain ⟨e0, e1, e2, e3, e4, tl, rfl⟩ := exists_cons5 encoded (by omega)
    have h' : (plain.length / 4 + 1) * 5 ≤ tl.length := by
      simp only [List.length_cons] at h; omega
    simp [encodeLoop, putGroup_cons, encodeLoop_eq plain tl h', encodeRef, groupSymbols]
  | [], encoded, h => by
    have h5 : 5 ≤ encoded.length := by simp only [List.length_nil] at h; omega
    simpa [encodeLoop, encodeRef] using putMarker_long encoded _ h5
  | [p0], encoded, h => by
    have h5 : 5 ≤ encoded.length := by simp only [List.length_cons, List.length_nil] at h; omega
    simpa [encodeLoop, encodeRef] using putMarker_long encoded _ h5
  | [p0, p1], encoded, h => by
    have h5 : 5 ≤ encoded.length := by simp only [List.length_cons, List.length_nil] at h; omega
    simpa [encodeLoop, encodeRef] using putMarker_long encoded _ h5
  | [p0, p1, p2], encoded, h => by
    have h5 : 5 ≤ encoded.length := by simp only [List.length_cons, List.length_nil] at h; omega
    simpa [encodeLoop, encodeRef] using putMarker_long encoded _ h5

/-! ## The decoder on the groups of the encoder -/

theorem Uint32_lt (b0 b1 b2 b3 : Byte) : Uint32 b0 b1 b2 b3 < 2 ^ 32 := by
  rw [Uint32_eq]
  have h0 := b0.isLt
  have h1 := b1.isLt
  have h2 := b2.isLt
  have h3 := b3.isLt
  omega

theorem bytesOf_Uint32 (b0 b1 b2 b3 : Byte) : bytesOf (Uint32 b0 b1 b2 b3) = [b0, b1, b2, b3] := by
  have h0 := b0.isLt
  have h1 := b1.isLt
  have h2 := b2.isLt
  have h3 := b3.isLt
  simp only [bytesOf, Uint32_eq, Nat.shiftRight_eq_div_pow]
  refine congrArg₂ _ ?_ (congrArg₂ _ ?_ (congrArg₂ _ ?_ (congrArg₂ _ ?_ rfl))) <;>
    (apply Fin.ext; simp only [Fin.ofNat, Fin.val_mk]; omega)

theorem exists_cons4 : ∀ (l : List Byte), 4 ≤ l.length →
    ∃ e0 e1 e2 e3 tl, l = e0 :: e1 :: e2 :: e3 :: tl
  | e0 :: e1 :: e2 :: e3 :: tl, _ => ⟨e0, e1, e2, e3, tl, rfl⟩
  | [], h => by simp at h
  | [_], h => by simp at h
  | [_, _], h => by simp at h
  | [_, _, _], h => by simp at h

theorem PutUint32_cons (d0 d1 d2 d3 : Byte) (tl : List Byte) (v : Nat) :
    PutUint32 (d0 :: d1 :: d2 :: d3 :: tl) v = some (bytesOf v ++ tl) := by
  simp [PutUint32, setAt, bytesOf]

theorem decodeLoop_group (v : Nat) (hv : v < 2 ^ 32) (rest : List Byte)
    (d0 d1 d2 d3 : Byte) (tl : List Byte) :
    decodeLoop (groupSymbols v ++ rest) (d0 :: d1 :: d2 :: d3 :: tl)
      = (decodeLoop rest tl).map (fun r => (r.1, bytesOf v ++ r.2)) := by
  have m : ∀ k, k % 85 < 85 := fun k => Nat.mod_lt _ (by decide)
  have v256 : ∀ k, k % 85 % 256 = k % 85 := fun k => by omega
  simp only [groupSymbols, List.cons_append, List.nil_append, decodeLoop, decodingAt_sym (m _),
    Option.pure_def, Option.bind_eq_bind, Option.some_bind, Fin.ofNat, Fin.val_mk, v256]
  rw [if_neg (digits_lor_ne _ _ _ _ _ (m _) (m _) (m _) (m _) (m _))]
  rw [groupValue_digits v hv, PutUint32_cons]
  rcases h : decodeLoop rest tl with _ | ⟨e, r⟩ <;> simp [bytesOf, h]

theorem markerValue_nil : markerValue [] = Uint32 1 0 0 0 := rfl

theorem markerValue_one (p0 : Byte) : markerValue [p0] = Uint32 p0 1 0 0 := rfl

theorem markerValue_two (p0 p1 : Byte) : markerValue [p0, p1] = Uint32 p0 p1 1 0 := rfl

theorem markerValue_three (p0 p1 p2 : Byte) : markerValue [p0, p1, p2] = Uint32 p0 p1 p2 1 := rfl

theorem decodeLoop_Uint32 (b0 b1 b2 b3 : Byte) (rest : List Byte)
    (d0 d1 d2 d3 : Byte) (tl : List Byte) :
    decodeLoop (groupSymbols (Uint32 b0 b1 b2 b3) ++ rest) (d0 :: d1 :: d2 :: d3 :: tl)
      = (decodeLoop rest tl).map (fun r => (r.1, b0 :: b1 :: b2 :: b3 :: r.2)) := by
  rw [decodeLoop_group _ (Uint32_lt _ _ _ _), bytesOf_Uint32]
  rfl

theorem decodeLoop_encodeRef : ∀ (plain decoded : List Byte),
    (plain.length / 4 + 1) * 4 ≤ decoded.length →
      decodeLoop (encodeRef plain) decoded
        = some (none, paddedPlain plain ++ decoded.drop ((plain.length / 4 + 1) * 4))
  | p0 :: p1 :: p2 :: p3 :: plain, decoded, h => by
    have hl : ((p0 :: p1 :: p2 :: p3 :: plain).length / 4 + 1) * 4
        = (plain.length / 4 + 1) * 4 + 4 := by
      simp only [List.length_cons]; omega
    rw [hl] at h ⊢
    obtain ⟨d0, d1, d2, d3, tl, rfl⟩ := exists_cons4 decoded (by omega)
    have h' : (plain.length / 4 + 1) * 4 ≤ tl.length := by
      simp only [List.length_cons] at h; omega
    simp [encodeRef, decodeLoop_Uint32, decodeLoop_encodeRef plain tl h', paddedPlain]
  | [], decoded, h => by
    obtain ⟨d0, d1, d2, d3, tl, rfl⟩ := exists_cons4 decoded
      (by simp only [List.length_nil] at h; omega)
    have := decodeLoop_Uint32 1 0 0 0 [] d0 d1 d2 d3 tl
    simpa [encodeRef, markerValue_nil, paddedPlain, decodeLoop] using this
  | [p0], decoded, h => by
    obtain ⟨d0, d1, d2, d3, tl, rfl⟩ := exists_cons4 decoded
      (by simp only [List.length_cons, List.length_nil] at h; omega)
    have := decodeLoop_Uint32 p0 1 0 0 [] d0 d1 d2 d3 tl
    simpa [encodeRef, markerValue_one, paddedPlain, decodeLoop] using this
  | [p0, p1], decoded, h => by
    obtain ⟨d0, d1, d2, d3, tl, rfl⟩ := exists_cons4 decoded
      (by simp only [List.length_cons, List.length_nil] at h; omega)
    have := decodeLoop_Uint32 p0 p1 1 0 [] d0 d1 d2 d3 tl
    simpa [encodeRef, markerValue_two, paddedPlain, decodeLoop] using this
  | [p0, p1, p2], decoded, h => by
    obtain ⟨d0, d1, d2, d3, tl, rfl⟩ := exists_cons4 decoded
      (by simp only [List.length_cons, List.length_nil] at h; omega)
    have := decodeLoop_Uint32 p0 p1 p2 1 [] d0 d1 d2 d3 tl
    simpa [encodeRef, markerValue_three, paddedPlain, decodeLoop] using this

/-! ## The marker scan -/

theorem paddedPlain_eq : ∀ plain : List Byte,
    paddedPlain plain = plain ++ 1 :: List.replicate (3 - plain.length % 4) 0
  | p0 :: p1 :: p2 :: p3 :: plain => by
    simp [paddedPlain, paddedPlain_eq plain]
    omega
  | [] => rfl
  | [_] => rfl
  | [_, _] => rfl
  | [_, _, _] => rfl

theorem getElem_append_cons_length (l : List Byte) (x : Byte) (r : List Byte) (n : Nat)
    (h : n = l.length) : (l ++ x :: r)[n]? = some x := by
  subst h
  rw [List.getElem?_append_right (Nat.le_refl _)]
  simp

theorem scanMarker_zeros (plain : List Byte) : ∀ (z : Nat) (rest : List Byte),
    scanMarker (plain ++ 1 :: (List.replicate z 0 ++ rest)) (plain.length + 1 + z)
      = some (plain.length, none)
  | 0, rest => by
    rw [Nat.add_zero, scanMarker, List.replicate_zero, List.nil_append,
      getElem_append_cons_length _ _ _ _ rfl]
    simp
  | z + 1, rest => by
    have e : plain ++ 1 :: (List.replicate (z + 1) 0 ++ rest)
        = (plain ++ 1 :: List.replicate z 0) ++ 0 :: rest := by
      simp [List.replicate_succ']
    have ih := scanMarker_zeros plain z (0 :: rest)
    have e' : plain ++ 1 :: (List.replicate z 0 ++ 0 :: rest)
        = (plain ++ 1 :: List.replicate z 0) ++ 0 :: rest := by
      simp
    rw [e'] at ih
    rw [e, ← Nat.add_assoc, scanMarker, getElem_append_cons_length _ _ _ _ (by simp; omega)]
    simpa using ih

/-! ## `EncodeTo`, `Encode`, `DecodeTo` and `Decode` on well-formed input -/

theorem EncodedLen_pos {plain : List Byte} (h : plain ≠ []) :
    EncodedLen plain = (plain.length / 4 + 1) * 5 := by
  have : plain.length ≠ 0 := fun h0 => h (List.length_eq_zero.mp h0)
  simp only [EncodedLen, this, if_false]
  omega

theorem EncodeTo_of_le (plain encoded : List Byte) (hp : plain ≠ [])
    (h : EncodedLen plain ≤ encoded.length) :
    EncodeTo plain encoded
      = some ⟨EncodedLen plain, none, encodeRef plain ++ encoded.drop (EncodedLen plain)⟩ := by
  have h0 : EncodedLen plain ≠ 0 := by rw [EncodedLen_pos hp]; omega
  have hl := EncodedLen_pos hp
  unfold EncodeTo
  simp only [h0, if_false, Nat.not_lt.mpr h]
  rw [encodeLoop_eq plain encoded (by omega), hl]
  rfl

theorem Encode_eq (plain : List Byte) : Encode plain = some (encodeAll plain) := by
  by_cases hp : plain = []
  · subst hp
    rfl
  · have hlen : plain.length ≠ 0 := fun h0 => hp (List.length_eq_zero.mp h0)
    unfold Encode
    simp only [Option.bind_eq_bind, Option.pure_def]
    rw [EncodeTo_of_le plain _ hp (by simp)]
    simp [encodeAll, hlen]

theorem encodeAll_length (plain : List Byte) : (encodeAll plain).length = EncodedLen plain := by
  by_cases hp : plain = []
  · subst hp
    rfl
  · have hlen : plain.length ≠ 0 := fun h0 => hp (List.length_eq_zero.mp h0)
    simp only [encodeAll, hlen, if_false, encodeRef_length, EncodedLen_pos hp]

theorem DecodedCap_encodeRef (plain : List Byte) :
    DecodedCap (encodeRef plain) = ((plain.length / 4 + 1) * 4, none) := by
  have h0 : (plain.length / 4 + 1) * 5 ≠ 0 := by omega
  have h5 : ¬ ((plain.length / 4 + 1) * 5 % 5 ≠ 0) := by omega
  simp only [DecodedCap, encodeRef_length, h0, h5, if_false]
  congr 1
  omega

theorem DecodeTo_encodeRef (plain dest : List Byte)
    (h : (plain.length / 4 + 1) * 4 ≤ dest.length) :
    DecodeTo (encodeRef plain) dest
      = some ⟨plain.length, none,
          paddedPlain plain ++ dest.drop ((plain.length / 4 + 1) * 4)⟩ := by
  have h0 : (encodeRef plain).length ≠ 0 := by rw [encodeRef_length]; omega
  have hc : (plain.length / 4 + 1) * 4 = plain.length + 1 + (3 - plain.length % 4) := by omega
  unfold DecodeTo
  simp only [DecodedCap_encodeRef, h0, if_false, Nat.not_lt.mpr h, ne_eq, not_true_eq_false]
  rw [decodeLoop_encodeRef plain dest h]
  simp only [Option.bind_eq_bind, Option.some_bind, ne_eq, not_true_eq_false, if_false]
  rw [paddedPlain_eq, List.append_assoc, List.cons_append]
  conv => enter [1, 1, 2]; rw [hc]
  rw [scanMarker_zeros]
  simp

theorem Decode_encodeAll (plain : List Byte) : Decode (encodeAll plain) = some (plain, none) := by
  by_cases hp : plain = []
  · subst hp
    rfl
  · have hlen : plain.length ≠ 0 := fun h0 => hp (List.length_eq_zero.mp h0)
    have hc : (plain.length / 4 + 1) * 4 ≠ 0 := by omega
    simp only [encodeAll, hlen, if_false]
    unfold Decode
    simp only [DecodedCap_encodeRef, hc, ne_eq, not_true_eq_false, or_self, if_false]
    rw [DecodeTo_encodeRef plain _ (by simp)]
    simp [paddedPlain_eq]

theorem groupSymbols_mem (v : Nat) : ∀ b ∈ groupSymbols v, b ∈ encoding := by
  have m : ∀ k, k % 85 < 85 := fun k => Nat.mod_lt _ (by decide)
  intro b hb
  simp only [groupSymbols, List.mem_cons, List.mem_singleton, List.not_mem_nil, or_false] at hb
  rcases hb with rfl | rfl | rfl | rfl | rfl <;> exact sym_mem (m _)

theorem encodeRef_mem : ∀ (plain : List Byte), ∀ b ∈ encodeRef plain, b ∈ encoding
  | p0 :: p1 :: p2 :: p3 :: plain => by
    intro b hb
    rw [encodeRef, List.mem_append] at hb
    rcases hb with hb | hb
    · exact groupSymbols_mem _ b hb
    · exact encodeRef_mem plain b hb
  | [] => groupSymbols_mem _
  | [_] => groupSymbols_mem _
  | [_, _] => groupSymbols_mem _
  | [_, _, _] => groupSymbols_mem _

theorem encodeAll_mem (plain : List Byte) : ∀ b ∈ encodeAll plain, b ∈ encoding := by
  intro b hb
  unfold encodeAll at hb
  split at hb
  · simp at hb
  · exact encodeRef_mem plain b hb

/-! ## Claims C1, C2, C4 to C10 -/

/-- C1. Round trip: for every byte sequence `p`, the empty one included, `Encode p`
returns an encoded sequence `e` (no panic), and `Decode e` returns `p` with a
`nil` error. -/
theorem C1_round_trip (p : List Byte) :
    ∃ e, Encode p = some e ∧ Decode e = some (p, none) :=
  ⟨encodeAll p, Encode_eq p, Decode_encodeAll p⟩

/-- C2. Length formula: for every byte sequence `p` of length `n`, the output of
`Encode p` has `EncodedLen p` bytes, which is 0 when `n = 0` and `(n+4)/4*5`
otherwise; for a non-empty `p` it is a positive multiple of 5. -/
theorem C2_length_formula (p : List Byte) :
    ∃ e, Encode p = some e ∧ e.length = EncodedLen p
      ∧ EncodedLen p = (if p.length = 0 then 0 else (p.length + 4) / 4 * 5)
      ∧ (p ≠ [] → 0 < e.length ∧ e.length % 5 = 0) := by
  refine ⟨encodeAll p, Encode_eq p, encodeAll_length p, rfl, fun hp => ?_⟩
  rw [encodeAll_length, EncodedLen_pos hp]
  omega

/-- C2, at the five-byte plain `[0, 1, 2, 3, 4]`: ten symbols. -/
theorem C2_length_formula_witness :
    ∃ e, Encode [0, 1, 2, 3, 4] = some e ∧ e.length = 10 ∧ 0 < e.length ∧ e.length % 5 = 0 := by
  obtain ⟨e, he, hl, _, hpos⟩ := C2_length_formula [0, 1, 2, 3, 4]
  exact ⟨e, he, hl, hpos (by decide)⟩

/-- C4. Invalid length rejection: for every byte sequence `e` whose length `m` is
positive and not a multiple of 5, whatever its bytes, `Decode e` returns a `nil`
slice and `InvalidEncodedLengthError(m)`. -/
theorem C4_invalid_length (e : List Byte) (hpos : 0 < e.length) (h5 : e.length % 5 ≠ 0) :
    Decode e = some ([], some (InvalidEncodedLengthError e.length)) := by
  have h0 : e.length ≠ 0 := by omega
  simp [Decode, DecodedCap, h0, h5]

/-- C4, at the one-byte input `"1"`: `InvalidEncodedLengthError(1)`. -/
theorem C4_invalid_length_witness :
    Decode [49] = some ([], some (InvalidEncodedLengthError 1)) :=
  C4_invalid_length [49] (by decide) (by decide)

/-- C5. Alphabet closure: for every byte sequence `p`, every byte of `Encode p` is
one of the symbols of the alphabet `encoding`, which has 85 of them. -/
theorem C5_alphabet_closure (p : List Byte) :
    ∃ e, Encode p = some e ∧ (∀ b ∈ e, b ∈ encoding) ∧ encoding.length = 85 :=
  ⟨encodeAll p, Encode_eq p, encodeAll_mem p, by decide!⟩

/-- C6. Undersized destination on encode: for every plain `p` and every
destination `d` shorter than `EncodedLen p` (so `p` is non-empty), `EncodeTo p d`
returns 0 and `InsufficientDestinationLengthError{want: EncodedLen p, got: len(d)}`,
and leaves `d` as it was. -/
theorem C6_encode_undersized (p d : List Byte) (hd : d.length < EncodedLen p) :
    EncodeTo p d
      = some ⟨0, some (InsufficientDestinationLengthError (EncodedLen p) d.length), d⟩ := by
  have h0 : EncodedLen p ≠ 0 := by omega
  simp [EncodeTo, h0, hd]

/-- C6, at a one-byte plain and a four-byte destination, one byte short of the
five needed. -/
theorem C6_encode_undersized_witness :
    EncodeTo [7] [0, 0, 0, 0]
      = some ⟨0, some (InsufficientDestinationLengthError 5 4), [0, 0, 0, 0]⟩ :=
  C6_encode_undersized [7] [0, 0, 0, 0] (by decide)

/-- C7. Undersized destination on decode: for every encoded input `e` whose length
`m` is a positive multiple of 5, whatever its bytes, and every destination `d`
shorter than `m/5*4`, `DecodeTo e d` returns 0 and
`InsufficientDestinationLengthError{want: m/5*4, got: len(d)}`, and leaves `d` as
it was. -/
theorem C7_decode_undersized (e d : List Byte) (hpos : 0 < e.length) (h5 : e.length % 5 = 0)
    (hd : d.length < e.length / 5 * 4) :
    DecodeTo e d
      = some ⟨0, some (InsufficientDestinationLengthError (e.length / 5 * 4) d.length), d⟩ := by
  have h0 : e.length ≠ 0 := by omega
  have hc : e.length * 4 / 5 = e.length / 5 * 4 := by omega
  simp [DecodeTo, DecodedCap, h0, h5, hc, hd]

/-- C7, at five bytes outside the alphabet (0xFF among them) and a three-byte
destination, one byte short of the four needed. -/
theorem C7_decode_undersized_witness :
    DecodeTo [255, 32, 0, 255, 10] [0, 0, 0]
      = some ⟨0, some (InsufficientDestinationLengthError 4 3), [0, 0, 0]⟩ :=
  C7_decode_undersized [255, 32, 0, 255, 10] [0, 0, 0] (by decide) (by decide) (by decide)

/-- C8. `DecodedCap` contract: for every encoded input of length `m`, `DecodedCap`
returns `(0, nil)` if `m = 0`, `(0, InvalidEncodedLengthError(m))` if `m` is not
a multiple of 5, and `(m/5*4, nil)` otherwise: the code's `m*4/5` is `m/5*4` on
every accepted length. -/
theorem C8_DecodedCap_contract (e : List Byte) :
    DecodedCap e
      = (if e.length = 0 then (0, none)
         else if e.length % 5 ≠ 0 then (0, some (InvalidEncodedLengthError e.length))
         else (e.length / 5 * 4, none)) := by
  unfold DecodedCap
  by_cases h0 : e.length = 0
  · simp [h0]
  · by_cases h5 : e.length % 5 = 0
    · have hc : e.length * 4 / 5 = e.length / 5 * 4 := by omega
      simp [h0, h5, hc]
    · simp [h0, h5]

/-- C9 as stated fails: a plain of length 4 (in 1..4) has `EncodedLen` 10, not 5,
and a plain of length 8 (in 5..8) has `EncodedLen` 15, not 10. -/
theorem C9_EncodedLen_counterexample :
    ([1, 2, 3, 4] : List Byte).length = 4 ∧ EncodedLen [1, 2, 3, 4] = 10
      ∧ EncodedLen [1, 2, 3, 4] ≠ 5
      ∧ ([1, 2, 3, 4, 5, 6, 7, 8] : List Byte).length = 8
      ∧ EncodedLen [1, 2, 3, 4, 5, 6, 7, 8] = 15
      ∧ EncodedLen [1, 2, 3, 4, 5, 6, 7, 8] ≠ 10 := by
  decide

/-- C9, amended. `EncodedLen` maps plain length 0 to 0, every length in 1..3 to 5,
and every length in 4..7 to 10. -/
theorem C9_EncodedLen_small (p : List Byte) :
    (p.length = 0 → EncodedLen p = 0)
      ∧ (1 ≤ p.length ∧ p.length ≤ 3 → EncodedLen p = 5)
      ∧ (4 ≤ p.length ∧ p.length ≤ 7 → EncodedLen p = 10) := by
  unfold EncodedLen
  refine ⟨fun h => by simp [h], fun h => ?_, fun h => ?_⟩
  · have h0 : p.length ≠ 0 := by omega
    simp only [h0, if_false]
    omega
  · have h0 : p.length ≠ 0 := by omega
    simp only [h0, if_false]
    omega

/-- C9, amended, at plains of length 0, 3 and 4. -/
theorem C9_EncodedLen_small_witness :
    EncodedLen [] = 0 ∧ EncodedLen [1, 2, 3] = 5 ∧ EncodedLen [1, 2, 3, 4] = 10 :=
  ⟨(C9_EncodedLen_small []).1 rfl, (C9_EncodedLen_small [1, 2, 3]).2.1 (by decide),
    (C9_EncodedLen_small [1, 2, 3, 4]).2.2 (by decide)⟩

/-- C10. Marker overhead: for every non-empty plain `p` with `Encode p = e`, and
every destination of exactly `cap = DecodedCap(e)` bytes, `DecodedCap` and
`DecodeTo` succeed, the returned true length `n` is `len(p)`, `n <= cap`, and
`cap - n` is one of 1, 2, 3, 4. -/
theorem C10_marker_overhead (p e dest : List Byte) (hp : p ≠ []) (he : Encode p = some e)
    (hd : dest.length = (DecodedCap e).1) :
    (DecodedCap e).2 = none
      ∧ ∃ r, DecodeTo e dest = some r ∧ r.err = none ∧ r.n = p.length
          ∧ r.n ≤ (DecodedCap e).1
          ∧ 1 ≤ (DecodedCap e).1 - r.n ∧ (DecodedCap e).1 - r.n ≤ 4 := by
  have hlen : p.length ≠ 0 := fun h0 => hp (List.length_eq_zero.mp h0)
  rw [Encode_eq] at he
  have he' : e = encodeRef p := by
    simpa [encodeAll, hlen] using (Option.some.inj he).symm
  subst he'
  rw [DecodedCap_encodeRef] at hd ⊢
  refine ⟨rfl, _, DecodeTo_encodeRef p dest (by simp only at hd; omega), rfl, rfl, ?_, ?_, ?_⟩ <;>
    (simp only; omega)

/-- C10, at the one-byte plain `[7]`, encoded as `"2ls/8"`, and a four-byte
destination: true length 1, capacity 4. -/
theorem C10_marker_overhead_witness :
    ∃ r, DecodeTo [50, 108, 115, 47, 56] [9, 9, 9, 9] = some r ∧ r.err = none ∧ r.n = 1
      ∧ (DecodedCap [50, 108, 115, 47, 56]).1 - r.n = 3 := by
  obtain ⟨_, r, hr, herr, hn, _, _, _⟩ :=
    C10_marker_overhead [7] [50, 108, 115, 47, 56] [9, 9, 9, 9] (by decide) (by decide!)
      (by decide)
  exact ⟨r, hr, herr, hn, by rw [hn]; decide⟩

/-! ## One group of arbitrary bytes in the decoder -/

theorem lor_255_fin : ∀ x : Fin 256, x.val ||| 255 = 255 ∧ 255 ||| x.val = 255 := by
  decide!

theorem lor_255 {x : Nat} (h : x < 256) : x ||| 255 = 255 ∧ 255 ||| x = 255 :=
  lor_255_fin ⟨x, h⟩

theorem lor_entry {x y : Nat} (hx : x < 128 ∨ x = 255) (hy : y < 128 ∨ y = 255) :
    (x ||| y < 128 ∨ x ||| y = 255) ∧ (x ||| y = 255 ↔ x = 255 ∨ y = 255) := by
  rcases hx with hx | rfl
  · rcases hy with hy | rfl
    · have h : x ||| y < 2 ^ 7 := Nat.or_lt_two_pow (by omega) (by omega)
      refine ⟨Or.inl (by omega), ?_⟩
      constructor
      · intro e; omega
      · intro e; omega
    · have := (lor_255 (by omega : x < 256)).1
      exact ⟨Or.inr this, by simp [this]⟩
  · have := (lor_255 (x := y) (by omega)).2
    exact ⟨Or.inr this, by simp [this]⟩

theorem lor5_eq_255 {m0 m1 m2 m3 m4 : Nat} (h0 : IsEntry m0) (h1 : IsEntry m1)
    (h2 : IsEntry m2) (h3 : IsEntry m3) (h4 : IsEntry m4) :
    (m0 ||| m1 ||| m2 ||| m3 ||| m4 = 255)
      ↔ (m0 = 255 ∨ m1 = 255 ∨ m2 = 255 ∨ m3 = 255 ∨ m4 = 255) := by
  have w : ∀ {m}, IsEntry m → m < 128 ∨ m = 255 := fun h => h.imp (fun h => by omega) id
  have a := lor_entry (w h0) (w h1)
  have b := lor_entry a.1 (w h2)
  have c := lor_entry b.1 (w h3)
  have d := lor_entry c.1 (w h4)
  rw [d.2, c.2, b.2, a.2]
  simp only [or_assoc]

theorem table_bytes : ∀ r : Fin 256,
    (r.val = 255 ∧ decodingAt r = none)
      ∨ (r.val ≠ 255 ∧ r ∈ encoding ∧ (decodingAt r).isSome = true
          ∧ ((decodingAt r).getD 0).val < 85)
      ∨ (r.val ≠ 255 ∧ r ∉ encoding ∧ decodingAt r = some 255) := by
  decide!

theorem encoding_eq_map_sym : encoding = (List.range 85).map sym := by
  decide!

theorem mem_encoding_iff (b : Byte) : b ∈ encoding ↔ ∃ d, d < 85 ∧ b = sym d := by
  rw [encoding_eq_map_sym, List.mem_map]
  constructor
  · rintro ⟨d, hd, rfl⟩
    exact ⟨d, List.mem_range.mp hd, rfl⟩
  · rintro ⟨d, hd, rfl⟩
    exact ⟨d, List.mem_range.mpr hd, rfl⟩

theorem decodingAt_255 {r : Byte} (h : r.val = 255) : decodingAt r = none := by
  rcases table_bytes r with h' | h' | h'
  · exact h'.2
  · exact absurd h h'.1
  · exact absurd h h'.1

theorem decodingAt_invalid {r : Byte} (hr : r ∉ encoding) (h : r.val ≠ 255) :
    decodingAt r = some 255 := by
  rcases table_bytes r with h' | h' | h'
  · exact absurd h'.1 h
  · exact absurd h'.2.1 hr
  · exact h'.2.2

theorem decodingAt_entry {r m : Byte} (h : decodingAt r = some m) :
    (m.val < 85 ∧ r ∈ encoding) ∨ (m.val = 255 ∧ r ∉ encoding) := by
  rcases table_bytes r with h' | h' | h'
  · rw [h'.2] at h; exact absurd h (by simp)
  · rw [h] at h'
    exact Or.inl ⟨by simpa using h'.2.2.2, h'.2.1⟩
  · rw [h'.2.2] at h
    have : m = 255 := (Option.some.inj h).symm
    subst this
    exact Or.inr ⟨rfl, h'.2.1⟩

theorem decodeLoop_cons_none (r0 r1 r2 r3 r4 : Byte) (rest decoded : List Byte)
    (h : decodingAt r0 = none ∨ decodingAt r1 = none ∨ decodingAt r2 = none
      ∨ decodingAt r3 = none ∨ decodingAt r4 = none) :
    decodeLoop (r0 :: r1 :: r2 :: r3 :: r4 :: rest) decoded = none := by
  simp only [decodeLoop, Option.bind_eq_bind, Option.pure_def]
  rcases h0 : decodingAt r0 with _ | m0
  · rfl
  rcases h1 : decodingAt r1 with _ | m1
  · rfl
  rcases h2 : decodingAt r2 with _ | m2
  · rfl
  rcases h3 : decodingAt r3 with _ | m3
  · rfl
  rcases h4 : decodingAt r4 with _ | m4
  · rfl
  rw [h0, h1, h2, h3, h4] at h
  simp at h

theorem decodeLoop_cons_some (r0 r1 r2 r3 r4 m0 m1 m2 m3 m4 : Byte) (rest decoded : List Byte)
    (h0 : decodingAt r0 = some m0) (h1 : decodingAt r1 = some m1)
    (h2 : decodingAt r2 = some m2) (h3 : decodingAt r3 = some m3)
    (h4 : decodingAt r4 = some m4) :
    decodeLoop (r0 :: r1 :: r2 :: r3 :: r4 :: rest) decoded
      = if m0.val = 255 then some (some (InvalidEncodedByteError r0), decoded)
        else if m1.val = 255 then some (some (InvalidEncodedByteError r1), decoded)
        else if m2.val = 255 then some (some (InvalidEncodedByteError r2), decoded)
        else if m3.val = 255 then some (some (InvalidEncodedByteError r3), decoded)
        else if m4.val = 255 then some (some (InvalidEncodedByteError r4), decoded)
        else (PutUint32 decoded (groupValue m0.val m1.val m2.val m3.val m4.val)).bind
          (fun d => (decodeLoop rest (d.drop 4)).bind (fun r => some (r.1, d.take 4 ++ r.2))) := by
  have e : ∀ {r m : Byte}, decodingAt r = some m → IsEntry m.val :=
    fun h => (decodingAt_entry h).imp (fun h => h.1) (fun h => h.1)
  have k := lor5_eq_255 (e h0) (e h1) (e h2) (e h3) (e h4)
  simp only [decodeLoop, h0, h1, h2, h3, h4, Option.pure_def, Option.bind_eq_bind, Option.some_bind]
  by_cases c : m0.val ||| m1.val ||| m2.val ||| m3.val ||| m4.val = 255
  · rw [if_pos c]
    have c' := k.mp c
    by_cases c0 : m0.val = 255
    · rw [if_pos c0, if_pos c0]
    rw [if_neg c0, if_neg c0]
    by_cases c1 : m1.val = 255
    · rw [if_pos c1, if_pos c1]
    rw [if_neg c1, if_neg c1]
    by_cases c2 : m2.val = 255
    · rw [if_pos c2, if_pos c2]
    rw [if_neg c2, if_neg c2]
    by_cases c3 : m3.val = 255
    · rw [if_pos c3, if_pos c3]
    rw [if_neg c3, if_neg c3]
    have c4 : m4.val = 255 :=
      (((c'.resolve_left c0).resolve_left c1).resolve_left c2).resolve_left c3
    rw [if_pos c4]
  · rw [if_neg c]
    have c' : ¬ (m0.val = 255 ∨ m1.val = 255 ∨ m2.val = 255 ∨ m3.val = 255 ∨ m4.val = 255) :=
      fun h => c (k.mpr h)
    simp only [not_or] at c'
    rw [if_neg c'.1, if_neg c'.2.1, if_neg c'.2.2.1, if_neg c'.2.2.2.1, if_neg c'.2.2.2.2]

/-! ## One symbol of an encoded sequence replaced by an invalid byte (C3) -/

theorem DecodedCap_congr {l l' : List Byte} (h : l.length = l'.length) :
    DecodedCap l = DecodedCap l' := by
  simp only [DecodedCap, h]

theorem decodingAt_sym_ne_255 {d : Nat} (h : d < 85) :
    ∃ m : Byte, decodingAt (sym d) = some m ∧ m.val = d := by
  refine ⟨Fin.ofNat d, decodingAt_sym h, ?_⟩
  simp only [Fin.ofNat, Fin.val_mk]
  omega

theorem decodeLoop_valid_cons (s0 s1 s2 s3 s4 : Byte) (rest : List Byte)
    (d0 d1 d2 d3 : Byte) (tl : List Byte)
    (h0 : s0 ∈ encoding) (h1 : s1 ∈ encoding) (h2 : s2 ∈ encoding) (h3 : s3 ∈ encoding)
    (h4 : s4 ∈ encoding) :
    ∃ v, decodeLoop (s0 :: s1 :: s2 :: s3 :: s4 :: rest) (d0 :: d1 :: d2 :: d3 :: tl)
      = (decodeLoop rest tl).map (fun r => (r.1, bytesOf v ++ r.2)) := by
  obtain ⟨a0, k0, rfl⟩ := (mem_encoding_iff _).mp h0
  obtain ⟨a1, k1, rfl⟩ := (mem_encoding_iff _).mp h1
  obtain ⟨a2, k2, rfl⟩ := (mem_encoding_iff _).mp h2
  obtain ⟨a3, k3, rfl⟩ := (mem_encoding_iff _).mp h3
  obtain ⟨a4, k4, rfl⟩ := (mem_encoding_iff _).mp h4
  obtain ⟨m0, e0, v0⟩ := decodingAt_sym_ne_255 k0
  obtain ⟨m1, e1, v1⟩ := decodingAt_sym_ne_255 k1
  obtain ⟨m2, e2, v2⟩ := decodingAt_sym_ne_255 k2
  obtain ⟨m3, e3, v3⟩ := decodingAt_sym_ne_255 k3
  obtain ⟨m4, e4, v4⟩ := decodingAt_sym_ne_255 k4
  refine ⟨groupValue m0.val m1.val m2.val m3.val m4.val, ?_⟩
  rw [decodeLoop_cons_some _ _ _ _ _ _ _ _ _ _ _ _ e0 e1 e2 e3 e4,
    if_neg (by omega), if_neg (by omega), if_neg (by omega), if_neg (by omega),
    if_neg (by omega), PutUint32_cons]
  rcases h : decodeLoop rest tl with _ | ⟨e, r⟩ <;> simp [bytesOf, h]

theorem decodeLoop_set_invalid (b : Byte) (hb : b ∉ encoding) :
    ∀ (l dest : List Byte) (i : Nat), (∀ s ∈ l, s ∈ encoding) → l.length % 5 = 0 →
      i < l.length → l.length / 5 * 4 ≤ dest.length →
      (b.val = 255 → decodeLoop (l.set i b) dest = none)
        ∧ (b.val ≠ 255 →
            ∃ dst, decodeLoop (l.set i b) dest = some (some (InvalidEncodedByteError b), dst))
  | [], _, i, _, _, hi, _ => by simp at hi
  | [_], _, _, _, h5, _, _ => by simp at h5
  | [_, _], _, _, _, h5, _, _ => by simp at h5
  | [_, _, _], _, _, _, h5, _, _ => by simp at h5
  | [_, _, _, _], _, _, _, h5, _, _ => by simp at h5
  | s0 :: s1 :: s2 :: s3 :: s4 :: rest, dest, i, hv, h5, hi, hd => by
    have hl : (s0 :: s1 :: s2 :: s3 :: s4 :: rest).length = rest.length + 5 := by simp
    rw [hl] at h5 hi hd
    obtain ⟨d0, d1, d2, d3, tl, rfl⟩ := exists_cons4 dest (by omega)
    have v0 : s0 ∈ encoding := hv _ (by simp)
    have v1 : s1 ∈ encoding := hv _ (by simp)
    have v2 : s2 ∈ encoding := hv _ (by simp)
    have v3 : s3 ∈ encoding := hv _ (by simp)
    have v4 : s4 ∈ encoding := hv _ (by simp)
    obtain ⟨a0, k0, rfl⟩ := (mem_encoding_iff _).mp v0
    obtain ⟨a1, k1, rfl⟩ := (mem_encoding_iff _).mp v1
    obtain ⟨a2, k2, rfl⟩ := (mem_encoding_iff _).mp v2
    obtain ⟨a3, k3, rfl⟩ := (mem_encoding_iff _).mp v3
    obtain ⟨a4, k4, rfl⟩ := (mem_encoding_iff _).mp v4
    obtain ⟨m0, e0, w0⟩ := decodingAt_sym_ne_255 k0
    obtain ⟨m1, e1, w1⟩ := decodingAt_sym_ne_255 k1
    obtain ⟨m2, e2, w2⟩ := decodingAt_sym_ne_255 k2
    obtain ⟨m3, e3, w3⟩ := decodingAt_sym_ne_255 k3
    obtain ⟨m4, e4, w4⟩ := decodingAt_sym_ne_255 k4
    have n0 : ¬ m0.val = 255 := by omega
    have n1 : ¬ m1.val = 255 := by omega
    have n2 : ¬ m2.val = 255 := by omega
    have n3 : ¬ m3.val = 255 := by omega
    have n4 : ¬ m4.val = 255 := by omega
    have t : ((255 : Byte).val = 255) := rfl
    rcases i with _ | _ | _ | _ | _ | i
    · simp only [List.set_cons_zero]
      refine ⟨fun h => decodeLoop_cons_none _ _ _ _ _ _ _ (Or.inl (decodingAt_255 h)),
        fun h => ⟨d0 :: d1 :: d2 :: d3 :: tl, ?_⟩⟩
      rw [decodeLoop_cons_some _ _ _ _ _ _ _ _ _ _ _ _ (decodingAt_invalid hb h) e1 e2 e3 e4,
        if_pos t]
    · simp only [List.set_cons_succ, List.set_cons_zero]
      refine ⟨fun h => decodeLoop_cons_none _ _ _ _ _ _ _ (Or.inr (Or.inl (decodingAt_255 h))),
        fun h => ⟨d0 :: d1 :: d2 :: d3 :: tl, ?_⟩⟩
      rw [decodeLoop_cons_some _ _ _ _ _ _ _ _ _ _ _ _ e0 (decodingAt_invalid hb h) e2 e3 e4,
        if_neg n0, if_pos t]
    · simp only [List.set_cons_succ, List.set_cons_zero]
      refine ⟨fun h => decodeLoop_cons_none _ _ _ _ _ _ _
          (Or.inr (Or.inr (Or.inl (decodingAt_255 h)))),
        fun h => ⟨d0 :: d1 :: d2 :: d3 :: tl, ?_⟩⟩
      rw [decodeLoop_cons_some _ _ _ _ _ _ _ _ _ _ _ _ e0 e1 (decodingAt_invalid hb h) e3 e4,
        if_neg n0, if_neg n1, if_pos t]
    · simp only [List.set_cons_succ, List.set_cons_zero]
      refine ⟨fun h => decodeLoop_cons_none _ _ _ _ _ _ _
          (Or.inr (Or.inr (Or.inr (Or.inl (decodingAt_255 h))))),
        fun h => ⟨d0 :: d1 :: d2 :: d3 :: tl, ?_⟩⟩
      rw [decodeLoop_cons_some _ _ _ _ _ _ _ _ _ _ _ _ e0 e1 e2 (decodingAt_invalid hb h) e4,
        if_neg n0, if_neg n1, if_neg n2, if_pos t]
    · simp only [List.set_cons_succ, List.set_cons_zero]
      refine ⟨fun h => decodeLoop_cons_none _ _ _ _ _ _ _
          (Or.inr (Or.inr (Or.inr (Or.inr (decodingAt_255 h))))),
        fun h => ⟨d0 :: d1 :: d2 :: d3 :: tl, ?_⟩⟩
      rw [decodeLoop_cons_some _ _ _ _ _ _ _ _ _ _ _ _ e0 e1 e2 e3 (decodingAt_invalid hb h),
        if_neg n0, if_neg n1, if_neg n2, if_neg n3, if_pos t]
    · simp only [List.set_cons_succ]
      have ih := decodeLoop_set_invalid b hb rest tl i
        (fun s hs => hv s (by simp [hs])) (by omega) (by omega)
        (by simp only [List.length_cons] at hd; omega)
      obtain ⟨v, hv'⟩ := decodeLoop_valid_cons (sym a0) (sym a1) (sym a2) (sym a3) (sym a4)
        (rest.set i b) d0 d1 d2 d3 tl v0 v1 v2 v3 v4
      rw [hv']
      refine ⟨fun h => ?_, fun h => ?_⟩
      · rw [ih.1 h]; rfl
      · obtain ⟨dst, hdst⟩ := ih.2 h
        rw [hdst]
        exact ⟨_, rfl⟩

theorem DecodeTo_set_invalid (p dest : List Byte) (i : Nat) (b : Byte)
    (hd : (p.length / 4 + 1) * 4 ≤ dest.length) (hi : i < (encodeRef p).length)
    (hb : b ∉ encoding) :
    (b.val = 255 → DecodeTo ((encodeRef p).set i b) dest = none)
      ∧ (b.val ≠ 255 → ∃ dst, DecodeTo ((encodeRef p).set i b) dest
          = some ⟨0, some (InvalidEncodedByteError b), dst⟩) := by
  have hlen : ((encodeRef p).set i b).length = (encodeRef p).length := List.length_set _ _ _
  have hcap : DecodedCap ((encodeRef p).set i b) = ((p.length / 4 + 1) * 4, none) := by
    rw [DecodedCap_congr hlen, DecodedCap_encodeRef]
  have h0 : ((encodeRef p).set i b).length ≠ 0 := by rw [hlen, encodeRef_length]; omega
  have key := decodeLoop_set_invalid b hb (encodeRef p) dest i (encodeRef_mem p)
    (by rw [encodeRef_length]; omega) hi (by rw [encodeRef_length]; omega)
  unfold DecodeTo
  simp only [hcap, h0, if_false, Nat.not_lt.mpr hd, ne_eq, not_true_eq_false]
  refine ⟨fun h => ?_, fun h => ?_⟩
  · rw [key.1 h]; rfl
  · obtain ⟨dst, hdst⟩ := key.2 h
    rw [hdst]
    exact ⟨dst, by simp⟩

/-- C3. Replacing one symbol of `Encode p` (`p` non-empty) by a byte `b` outside the
alphabet: `Decode` returns `InvalidEncodedByteError(b)` and no data for every such
`b` but 0xFF, and panics (index 255 of the 255-entry table `decoding`) for
`b = 0xFF`. -/
theorem C3_invalid_symbol (p e : List Byte) (i : Nat) (b : Byte) (hp : p ≠ [])
    (he : Encode p = some e) (hi : i < e.length) (hb : b ∉ encoding) :
    Decode (e.set i b)
      = if b.val = 255 then none else some ([], some (InvalidEncodedByteError b)) := by
  have hlen : p.length ≠ 0 := fun h0 => hp (List.length_eq_zero.mp h0)
  rw [Encode_eq] at he
  have he' : e = encodeRef p := by
    simpa [encodeAll, hlen] using (Option.some.inj he).symm
  subst he'
  have hl : ((encodeRef p).set i b).length = (encodeRef p).length := List.length_set _ _ _
  have hcap : DecodedCap ((encodeRef p).set i b) = ((p.length / 4 + 1) * 4, none) := by
    rw [DecodedCap_congr hl, DecodedCap_encodeRef]
  have hc : (p.length / 4 + 1) * 4 ≠ 0 := by omega
  have key := DecodeTo_set_invalid p (List.replicate ((p.length / 4 + 1) * 4) 0) i b
    (by simp) hi hb
  unfold Decode
  simp only [hcap, hc, ne_eq, not_true_eq_false, or_self, if_false]
  by_cases h : b.val = 255
  · rw [if_pos h, key.1 h]; rfl
  · obtain ⟨dst, hdst⟩ := key.2 h
    rw [if_neg h, hdst]
    simp

/-- C3, at the failing input: `Encode([0x00])` is `"00961"`; with its first symbol
replaced by 0xFF, `Decode` panics instead of returning
`InvalidEncodedByteError(0xFF)`. -/
theorem C3_invalid_symbol_witness :
    (255 : Byte) ∉ encoding ∧ Encode [0] = some [48, 48, 57, 54, 49]
      ∧ Decode [255, 48, 57, 54, 49] = none := by
  have h : (255 : Byte) ∉ encoding := by decide!
  have he : Encode [0] = some [48, 48, 57, 54, 49] := by decide!
  exact ⟨h, he, C3_invalid_symbol [0] [48, 48, 57, 54, 49] 0 255 (by decide) he (by decide) h⟩

/-! ## Claims C11 to C15 -/

theorem scanMarker_lt (plain : List Byte) : ∀ (k n : Nat),
    scanMarker plain k = some (n, none) → n < k
  | 0, n, h => by simp [scanMarker] at h
  | k + 1, n, h => by
    rw [scanMarker] at h
    rcases hb : plain[k]? with _ | b
    · rw [hb] at h; simp at h
    · rw [hb] at h
      simp only at h
      by_cases h1 : b = 1
      · rw [if_pos h1] at h
        have : k = n := by simpa using h
        omega
      · rw [if_neg h1] at h
        by_cases h0 : b = 0
        · rw [if_pos h0] at h
          have := scanMarker_lt plain k n h
          omega
        · rw [if_neg h0] at h
          simp at h

theorem decodeLoop_length : ∀ (l dest : List Byte) (e : Option Z85Error) (dst : List Byte),
    decodeLoop l dest = some (e, dst) → dst.length = dest.length
  | [], dest, e, dst, h => by
    simp only [decodeLoop, Option.some.injEq, Prod.mk.injEq] at h
    rw [← h.2]
  | [_], _, _, _, h => by simp [decodeLoop] at h
  | [_, _], _, _, _, h => by simp [decodeLoop] at h
  | [_, _, _], _, _, _, h => by simp [decodeLoop] at h
  | [_, _, _, _], _, _, _, h => by simp [decodeLoop] at h
  | r0 :: r1 :: r2 :: r3 :: r4 :: rest, dest, e, dst, h => by
    rcases h0 : decodingAt r0 with _ | m0
    · rw [decodeLoop_cons_none _ _ _ _ _ _ _ (Or.inl h0)] at h; simp at h
    rcases h1 : decodingAt r1 with _ | m1
    · rw [decodeLoop_cons_none _ _ _ _ _ _ _ (Or.inr (Or.inl h1))] at h; simp at h
    rcases h2 : decodingAt r2 with _ | m2
    · rw [decodeLoop_cons_none _ _ _ _ _ _ _ (Or.inr (Or.inr (Or.inl h2)))] at h; simp at h
    rcases h3 : decodingAt r3 with _ | m3
    · rw [decodeLoop_cons_none _ _ _ _ _ _ _ (Or.inr (Or.inr (Or.inr (Or.inl h3))))] at h
      simp at h
    rcases h4 : decodingAt r4 with _ | m4
    · rw [decodeLoop_cons_none _ _ _ _ _ _ _ (Or.inr (Or.inr (Or.inr (Or.inr h4))))] at h
      simp at h
    rw [decodeLoop_cons_some _ _ _ _ _ _ _ _ _ _ _ _ h0 h1 h2 h3 h4] at h
    have inj : ∀ {x : Option Z85Error}, some (x, dest) = some (e, dst) → dst.length = dest.length :=
      fun hx => by
        simp only [Option.some.injEq, Prod.mk.injEq] at hx
        rw [← hx.2]
    split at h
    · exact inj h
    split at h
    · exact inj h
    split at h
    · exact inj h
    split at h
    · exact inj h
    split at h
    · exact inj h
    by_cases hl : 4 ≤ dest.length
    · obtain ⟨d0, d1, d2, d3, tl, rfl⟩ := exists_cons4 dest hl
      rw [PutUint32_cons] at h
      simp only [Option.some_bind, bytesOf, List.cons_append, List.nil_append,
        List.drop_succ_cons, List.drop_zero, List.take_succ_cons, List.take_zero] at h
      rcases hr : decodeLoop rest tl with _ | ⟨e', r⟩
      · rw [hr] at h; simp at h
      · rw [hr] at h
        simp only [Option.some_bind, Option.some.injEq, Prod.mk.injEq] at h
        have ih := decodeLoop_length rest tl e' r hr
        rw [← h.2]
        simp [ih]
    · have : PutUint32 dest (groupValue m0.val m1.val m2.val m3.val m4.val) = none := by
        simp [PutUint32, Nat.lt_of_not_le hl]
      rw [this] at h
      simp at h

/-- C11. In-place round trip into an oversized, dirty destination: for every
non-empty plain `p` with `Encode p = e` and every destination `d` of at least
`DecodedCap(e)` bytes, whatever they hold, `DecodeTo e d` succeeds and returns
`len(p)`; afterwards `d` has its length, `d[:len(p)]` is `p`, and every byte of `d`
at an index from `DecodedCap(e)` on is what it was. -/
theorem C11_in_place_round_trip (p e d : List Byte) (hp : p ≠ []) (he : Encode p = some e)
    (hd : (DecodedCap e).1 ≤ d.length) :
    ∃ r, DecodeTo e d = some r ∧ r.err = none ∧ r.n = p.length
      ∧ r.dst.length = d.length ∧ r.dst.take p.length = p
      ∧ ∀ i, (DecodedCap e).1 ≤ i → r.dst[i]? = d[i]? := by
  have hlen : p.length ≠ 0 := fun h0 => hp (List.length_eq_zero.mp h0)
  rw [Encode_eq] at he
  have he' : e = encodeRef p := by
    simpa [encodeAll, hlen] using (Option.some.inj he).symm
  subst he'
  rw [DecodedCap_encodeRef] at hd ⊢
  simp only at hd ⊢
  have hpl : (paddedPlain p).length = (p.length / 4 + 1) * 4 := by
    rw [paddedPlain_eq]
    simp only [List.length_append, List.length_cons, List.length_replicate]
    omega
  refine ⟨_, DecodeTo_encodeRef p d hd, rfl, rfl, ?_, ?_, ?_⟩
  · simp only [List.length_append, hpl, List.length_drop]
    omega
  · simp only [paddedPlain_eq, List.append_assoc]
    exact List.take_left' rfl
  · intro i hi
    simp only
    rw [List.getElem?_append_right (by omega), hpl, List.getElem?_drop]
    congr 1
    omega

/-- C11, at the input of `TestDecodeTo`: plain `[1]`, encoded as `"0rAf2"`, and a
destination four bytes longer than the capacity whose last byte is 1. -/
theorem C11_in_place_round_trip_witness :
    ∃ r, DecodeTo [48, 114, 65, 102, 50] [0, 0, 0, 0, 0, 0, 0, 1] = some r ∧ r.err = none
      ∧ r.n = 1 ∧ r.dst.take 1 = [1] ∧ r.dst[7]? = some 1 := by
  obtain ⟨r, hr, herr, hn, _, ht, hf⟩ :=
    C11_in_place_round_trip [1] [48, 114, 65, 102, 50] [0, 0, 0, 0, 0, 0, 0, 1] (by decide)
      (by decide!) (by decide)
  exact ⟨r, hr, herr, hn, ht, hf 7 (by decide)⟩
/-- C12. `EncodeTo` writes exactly `EncodedLen` bytes: for every plain `p` and every
destination `d` of at least `EncodedLen p` bytes, `EncodeTo p d` returns
`(EncodedLen p, nil)`; afterwards the first `EncodedLen p` bytes of `d` are
`Encode p` and the bytes of `d` from index `EncodedLen p` on are what they were. -/
theorem C12_EncodeTo_frame (p d : List Byte) (hd : EncodedLen p ≤ d.length) :
    ∃ e, Encode p = some e ∧ e.length = EncodedLen p
      ∧ EncodeTo p d = some ⟨EncodedLen p, none, e ++ d.drop (EncodedLen p)⟩ := by
  refine ⟨encodeAll p, Encode_eq p, encodeAll_length p, ?_⟩
  by_cases hp : p = []
  · subst hp
    rfl
  · have hlen : p.length ≠ 0 := fun h0 => hp (List.length_eq_zero.mp h0)
    rw [EncodeTo_of_le p d hp hd]
    simp [encodeAll, hlen]

/-- C12, at the plain `[1]` and a seven-byte destination: five symbols written,
the last two bytes kept. -/
theorem C12_EncodeTo_frame_witness :
    ∃ e, Encode [1] = some e ∧ e.length = 5
      ∧ EncodeTo [1] [9, 9, 9, 9, 9, 8, 7] = some ⟨5, none, e ++ [8, 7]⟩ :=
  C12_EncodeTo_frame [1] [9, 9, 9, 9, 9, 8, 7] (by decide)

/-- C13. True length never exceeds capacity: for every encoded input `e` and
destination `d`, if `DecodeTo e d` returns `n` with a `nil` error, then
`DecodedCap(e)` has a `nil` error and is a multiple of 4, and
`n <= DecodedCap(e) <= len(d)`, with `n < DecodedCap(e)` when `e` is non-empty. -/
theorem C13_length_le_cap (e d : List Byte) (r : ToResult) (h : DecodeTo e d = some r)
    (herr : r.err = none) :
    (DecodedCap e).2 = none ∧ (DecodedCap e).1 % 4 = 0
      ∧ r.n ≤ (DecodedCap e).1 ∧ (DecodedCap e).1 ≤ d.length
      ∧ (e ≠ [] → r.n < (DecodedCap e).1) := by
  unfold DecodeTo at h
  by_cases h0 : e.length = 0
  · have he : e = [] := List.length_eq_zero.mp h0
    subst he
    simp only [DecodedCap, List.length_nil, if_true, ne_eq, not_true_eq_false, if_false,
      Option.some.injEq] at h
    subst h
    simp [DecodedCap]
  · by_cases h5 : e.length % 5 = 0
    · have hc : DecodedCap e = (e.length / 5 * 4, none) := by
        have : e.length * 4 / 5 = e.length / 5 * 4 := by omega
        simp [DecodedCap, h0, h5, this]
      rw [hc] at h ⊢
      simp only [ne_eq, not_true_eq_false, if_false, h0] at h
      by_cases hd : d.length < e.length / 5 * 4
      · rw [if_pos hd] at h
        have := Option.some.inj h
        subst this
        simp at herr
      · rw [if_neg hd] at h
        rcases hl : decodeLoop e d with _ | ⟨e', dst⟩
        · rw [hl] at h; simp at h
        · rw [hl] at h
          simp only [Option.bind_eq_bind, Option.some_bind, Option.pure_def] at h
          by_cases he' : e' = none
          · subst he'
            simp only [not_true_eq_false, if_false] at h
            rcases hs : scanMarker dst (e.length / 5 * 4) with _ | ⟨n, err⟩
            · rw [hs] at h; simp at h
            · rw [hs] at h
              simp only [Option.some_bind, Option.some.injEq] at h
              subst h
              simp only at herr
              subst herr
              have hn := scanMarker_lt dst _ _ hs
              simp only
              refine ⟨trivial, by omega, by omega, by omega, fun _ => hn⟩
          · rw [if_pos he'] at h
            have := Option.some.inj h
            subst this
            exact absurd herr he'
    · have hc : DecodedCap e = (0, some (InvalidEncodedLengthError e.length)) := by
        simp [DecodedCap, h0, h5]
      rw [hc] at h
      simp only [ne_eq, reduceCtorEq, not_false_eq_true, if_true, Option.some.injEq] at h
      subst h
      simp at herr

/-- C13, at the encoded `"0rAf2"` of `[1]` and an eight-byte destination: true
length 1, capacity 4. -/
theorem C13_length_le_cap_witness :
    (DecodedCap [48, 114, 65, 102, 50]).1 % 4 = 0
      ∧ 1 ≤ (DecodedCap [48, 114, 65, 102, 50]).1
      ∧ (DecodedCap [48, 114, 65, 102, 50]).1 ≤ 8 := by
  have h := C13_length_le_cap [48, 114, 65, 102, 50] [0, 0, 0, 0, 0, 0, 0, 1]
    ⟨1, none, [1, 1, 0, 0, 0, 0, 0, 1]⟩ (by decide!) rfl
  exact ⟨h.2.1, h.2.2.1, h.2.2.2.1⟩

/-- C14. Symbol table invariant: the alphabet `encoding` has exactly 85 pairwise
distinct bytes, `init` builds the table `decoding` without a panic, and for every
digit `d` in 0..84 `decoding[encoding[d]]` is `d`, so never the sentinel 255. -/
theorem C14_table_invariant :
    encoding.length = 85 ∧ encoding.Nodup ∧ decodingInit = some decoding
      ∧ ∀ d, d < 85 → ∃ s m, encodingAt d = some s ∧ decodingAt s = some m
          ∧ m.val = d ∧ m.val ≠ 255 := by
  refine ⟨by decide!, by decide!, by decide!, fun d hd => ?_⟩
  obtain ⟨m, hm, hv⟩ := decodingAt_sym_ne_255 hd
  exact ⟨sym d, m, encodingAt_sym hd, hm, hv, by omega⟩

/-- C14, at the last digit 84, whose symbol is `#` (byte 35). -/
theorem C14_table_invariant_witness :
    ∃ s m, encodingAt 84 = some s ∧ decodingAt s = some m ∧ m.val = 84 ∧ m.val ≠ 255 :=
  C14_table_invariant.2.2.2 84 (by decide)

/-- C15. `EncodedLen` is monotonic non-decreasing in the plain length: a plain no
longer than another has an `EncodedLen` no larger; and `EncodedLen` grows by
exactly 5 each time the length reaches a multiple of 4. -/
theorem C15_EncodedLen_monotone (p q : List Byte) :
    (p.length ≤ q.length → EncodedLen p ≤ EncodedLen q)
      ∧ (q.length = p.length + 1 → q.length % 4 = 0 → EncodedLen q = EncodedLen p + 5) := by
  unfold EncodedLen
  constructor
  · intro h
    by_cases hp : p.length = 0
    · simp [hp]
    · have hq : q.length ≠ 0 := by omega
      simp only [hp, hq, if_false]
      have : (p.length + 4) / 4 ≤ (q.length + 4) / 4 := Nat.div_le_div_right (by omega)
      omega
  · intro h h4
    have hp : p.length ≠ 0 := by omega
    have hq : q.length ≠ 0 := by omega
    simp only [hp, hq, if_false]
    omega

/-- C15, at plains of length 3 and 4: 5 and 10. -/
theorem C15_EncodedLen_monotone_witness :
    EncodedLen [1, 2, 3] ≤ EncodedLen [1, 2, 3, 4]
      ∧ EncodedLen [1, 2, 3, 4] = EncodedLen [1, 2, 3] + 5 :=
  ⟨(C15_EncodedLen_monotone [1, 2, 3] [1, 2, 3, 4]).1 (by decide),
    (C15_EncodedLen_monotone [1, 2, 3] [1, 2, 3, 4]).2 (by decide) (by decide)⟩

/-! ## The groups of `Encode` against the block transform of the spec (C16) -/

theorem specBigEndian_four (b0 b1 b2 b3 : Byte) :
    specBigEndian [b0, b1, b2, b3] = Uint32 b0 b1 b2 b3 := by
  rw [Uint32_eq]
  simp only [specBigEndian, List.foldl_cons, List.foldl_nil]
  omega

theorem specBlock_cons (p0 p1 p2 p3 : Byte) (rest : List Byte) (i : Nat) :
    specBlock (p0 :: p1 :: p2 :: p3 :: rest) (i + 1) = specBlock rest i := by
  have hl : (p0 :: p1 :: p2 :: p3 :: rest).length = rest.length + 4 := rfl
  have hd : (rest.length + 4) / 4 = rest.length / 4 + 1 := by omega
  have hm : (rest.length + 4) % 4 = rest.length % 4 := by omega
  have e1 : 4 * (i + 1) = 4 * i + 4 := by omega
  have e2 : 4 * (rest.length / 4 + 1) = 4 * (rest.length / 4) + 4 := by omega
  unfold specBlock
  rw [hl, hd, hm, e1, e2]
  simp only [List.drop_succ_cons, Nat.add_lt_add_iff_right]

theorem specBlock_zero_cons (p0 p1 p2 p3 : Byte) (rest : List Byte) :
    specBlock (p0 :: p1 :: p2 :: p3 :: rest) 0 = [p0, p1, p2, p3] := by
  have hl : (p0 :: p1 :: p2 :: p3 :: rest).length = rest.length + 4 := rfl
  have h : 0 < (rest.length + 4) / 4 := by omega
  unfold specBlock
  rw [hl, if_pos h]
  rfl

theorem encodeRef_group : ∀ (p : List Byte) (i : Nat), i ≤ p.length / 4 →
    ((encodeRef p).drop (5 * i)).take 5 = groupSymbols (specBigEndian (specBlock p i))
  | p0 :: p1 :: p2 :: p3 :: rest, 0, _ => by
    rw [specBlock_zero_cons, specBigEndian_four, encodeRef]
    simp [groupSymbols]
  | p0 :: p1 :: p2 :: p3 :: rest, i + 1, h => by
    have hi : i ≤ rest.length / 4 := by
      simp only [List.length_cons] at h; omega
    have e1 : 5 * (i + 1) = 5 * i + 5 := by omega
    rw [specBlock_cons, ← encodeRef_group rest i hi, encodeRef, e1]
    simp [groupSymbols]
  | [], i, h => by
    have : i = 0 := by simpa using h
    subst this
    rw [encodeRef, markerValue_nil, ← specBigEndian_four]
    rfl
  | [p0], i, h => by
    have : i = 0 := by
      simp only [List.length_cons, List.length_nil] at h; omega
    subst this
    have hb : specBlock [p0] 0 = [p0, 1, 0, 0] := by simp [specBlock]
    rw [encodeRef, markerValue_one, ← specBigEndian_four, hb]
    rfl
  | [p0, p1], i, h => by
    have : i = 0 := by
      simp only [List.length_cons, List.length_nil] at h; omega
    subst this
    have hb : specBlock [p0, p1] 0 = [p0, p1, 1, 0] := by simp [specBlock]
    rw [encodeRef, markerValue_two, ← specBigEndian_four, hb]
    rfl
  | [p0, p1, p2], i, h => by
    have : i = 0 := by
      simp only [List.length_cons, List.length_nil] at h; omega
    subst this
    have hb : specBlock [p0, p1, p2] 0 = [p0, p1, p2, 1] := by simp [specBlock]
    rw [encodeRef, markerValue_three, ← specBigEndian_four, hb]
    rfl

theorem specBlock_length (p : List Byte) (i : Nat) (h : i ≤ p.length / 4) :
    (specBlock p i).length = 4 := by
  unfold specBlock
  split
  · simp only [List.length_take, List.length_drop]
    omega
  · simp only [List.length_append, List.length_drop, List.length_cons, List.length_replicate]
    omega

theorem specBigEndian_lt : ∀ (bs : List Byte), bs.length = 4 → specBigEndian bs < 2 ^ 32
  | [b0, b1, b2, b3], _ => by
    rw [specBigEndian_four]
    exact Uint32_lt _ _ _ _
  | [], h => by simp at h
  | [_], h => by simp at h
  | [_, _], h => by simp at h
  | [_, _, _], h => by simp at h
  | _ :: _ :: _ :: _ :: _ :: _, h => by simp at h

theorem groupSymbols_digits (v : Nat) (hv : v < 2 ^ 32) :
    ∃ ds : List Nat, ds.length = 5 ∧ (∀ d ∈ ds, d < 85)
      ∧ ds.map encodingAt = (groupSymbols v).map some ∧ specBase85 ds = v := by
  have m : ∀ k, k % 85 < 85 := fun k => Nat.mod_lt _ (by decide)
  refine ⟨[v / 85 / 85 / 85 / 85 % 85, v / 85 / 85 / 85 % 85, v / 85 / 85 % 85,
    v / 85 % 85, v % 85], rfl, ?_, ?_, ?_⟩
  · intro d hd
    simp only [List.mem_cons, List.mem_singleton, List.not_mem_nil, or_false] at hd
    rcases hd with rfl | rfl | rfl | rfl | rfl <;> exact m _
  · simp only [List.map_cons, List.map_nil, groupSymbols, encodingAt_sym (m _)]
  · simp only [specBase85, List.foldl_cons, List.foldl_nil]
    omega

/-- C16. `Encode` equals the reference block transform: for every non-empty plain
`p` of length `4k + r` with `Encode p = e`, `e` is `k + 1` groups of 5 symbols, and
for every `i <= k` the symbols of group `i` are `encoding[d]` for five digits
`d < 85` that, read most significant first as a base-85 number, are the big-endian
value of block `i`: `p[4i..4i+3]` for `i < k`, and for `i = k` the `r` remainder
bytes, then a byte 1, then zero bytes. -/
theorem C16_reference_transform (p e : List Byte) (hp : p ≠ []) (he : Encode p = some e) :
    e.length = (p.length / 4 + 1) * 5
      ∧ ∀ i, i ≤ p.length / 4 →
          ∃ ds : List Nat, ds.length = 5 ∧ (∀ d ∈ ds, d < 85)
            ∧ ds.map encodingAt = ((e.drop (5 * i)).take 5).map some
            ∧ specBase85 ds = specBigEndian (specBlock p i) := by
  have hlen : p.length ≠ 0 := fun h0 => hp (List.length_eq_zero.mp h0)
  rw [Encode_eq] at he
  have he' : e = encodeRef p := by
    simpa [encodeAll, hlen] using (Option.some.inj he).symm
  subst he'
  refine ⟨encodeRef_length p, fun i hi => ?_⟩
  rw [encodeRef_group p i hi]
  exact groupSymbols_digits _ (specBigEndian_lt _ (specBlock_length p i hi))

/-- C16, at the five-byte plain `[0, 1, 2, 3, 4]`, encoded as `"009c61owG5"`: the
marker group `"1owG5"` has digits 1, 24, 32, 42, 5, the base-85 reading of the
big-endian value of the block `[4, 1, 0, 0]`. -/
theorem C16_reference_transform_witness :
    ∃ ds : List Nat, ds.length = 5 ∧ (∀ d ∈ ds, d < 85)
      ∧ ds.map encodingAt = [some 49, some 111, some 119, some 71, some 53]
      ∧ specBase85 ds = 4 * 2 ^ 24 + 2 ^ 16 := by
  have h := (C16_reference_transform [0, 1, 2, 3, 4]
    [48, 48, 57, 99, 54, 49, 111, 119, 71, 53] (by decide) (by decide!)).2 1 (by decide)
  exact h

/-! ## The decoder on alphabet symbols and the marker scan (C17, C18) -/

theorem decodingAt_mem {s : Byte} (h : s ∈ encoding) :
    ∃ m : Byte, decodingAt s = some m ∧ m.val < 85 ∧ dig s = m.val := by
  obtain ⟨d, hd, rfl⟩ := (mem_encoding_iff s).mp h
  obtain ⟨m, hm, hv⟩ := decodingAt_sym_ne_255 hd
  refine ⟨m, hm, by omega, ?_⟩
  simp only [dig, hm, Option.getD_some]

theorem decodeLoop_valid_group (s0 s1 s2 s3 s4 : Byte) (rest : List Byte)
    (d0 d1 d2 d3 : Byte) (tl : List Byte)
    (h0 : s0 ∈ encoding) (h1 : s1 ∈ encoding) (h2 : s2 ∈ encoding) (h3 : s3 ∈ encoding)
    (h4 : s4 ∈ encoding) :
    decodeLoop (s0 :: s1 :: s2 :: s3 :: s4 :: rest) (d0 :: d1 :: d2 :: d3 :: tl)
      = (decodeLoop rest tl).map (fun r =>
          (r.1, bytesOf (groupValue (dig s0) (dig s1) (dig s2) (dig s3) (dig s4)) ++ r.2)) := by
  obtain ⟨m0, e0, v0, g0⟩ := decodingAt_mem h0
  obtain ⟨m1, e1, v1, g1⟩ := decodingAt_mem h1
  obtain ⟨m2, e2, v2, g2⟩ := decodingAt_mem h2
  obtain ⟨m3, e3, v3, g3⟩ := decodingAt_mem h3
  obtain ⟨m4, e4, v4, g4⟩ := decodingAt_mem h4
  rw [decodeLoop_cons_some _ _ _ _ _ _ _ _ _ _ _ _ e0 e1 e2 e3 e4,
    if_neg (by omega), if_neg (by omega), if_neg (by omega), if_neg (by omega),
    if_neg (by omega), PutUint32_cons, g0, g1, g2, g3, g4]
  rcases h : decodeLoop rest tl with _ | ⟨e, r⟩ <;> simp [bytesOf, h]

theorem decodeRef_length : ∀ (l : List Byte), l.length % 5 = 0 →
    (decodeRef l).length = l.length / 5 * 4
  | [], _ => rfl
  | [_], h => by simp at h
  | [_, _], h => by simp at h
  | [_, _, _], h => by simp at h
  | [_, _, _, _], h => by simp at h
  | s0 :: s1 :: s2 :: s3 :: s4 :: rest, h => by
    have hl : (s0 :: s1 :: s2 :: s3 :: s4 :: rest).length = rest.length + 5 := rfl
    rw [hl] at h ⊢
    rw [decodeRef, List.length_append, decodeRef_length rest (by omega)]
    simp only [bytesOf, List.length_cons, List.length_nil]
    omega

theorem decodeLoop_valid : ∀ (l dest : List Byte), (∀ s ∈ l, s ∈ encoding) →
    l.length % 5 = 0 → l.length / 5 * 4 ≤ dest.length →
      decodeLoop l dest = some (none, decodeRef l ++ dest.drop (l.length / 5 * 4))
  | [], dest, _, _, _ => by simp [decodeLoop, decodeRef]
  | [_], _, _, h, _ => by simp at h
  | [_, _], _, _, h, _ => by simp at h
  | [_, _, _], _, _, h, _ => by simp at h
  | [_, _, _, _], _, _, h, _ => by simp at h
  | s0 :: s1 :: s2 :: s3 :: s4 :: rest, dest, hv, h5, hd => by
    have hl : (s0 :: s1 :: s2 :: s3 :: s4 :: rest).length = rest.length + 5 := rfl
    rw [hl] at h5 hd ⊢
    have hc : (rest.length + 5) / 5 * 4 = rest.length / 5 * 4 + 4 := by omega
    rw [hc] at hd ⊢
    obtain ⟨d0, d1, d2, d3, tl, rfl⟩ := exists_cons4 dest (by omega)
    have ih := decodeLoop_valid rest tl (fun s hs => hv s (by simp [hs])) (by omega)
      (by simp only [List.length_cons] at hd; omega)
    rw [decodeLoop_valid_group _ _ _ _ _ _ _ _ _ _ _ (hv _ (by simp)) (hv _ (by simp))
      (hv _ (by simp)) (hv _ (by simp)) (hv _ (by simp)), ih, decodeRef]
    simp

theorem DecodedCap_of_mod {l : List Byte} (h0 : l ≠ []) (h5 : l.length % 5 = 0) :
    DecodedCap l = (l.length / 5 * 4, none) := by
  have hl : l.length ≠ 0 := fun h => h0 (List.length_eq_zero.mp h)
  have : l.length * 4 / 5 = l.length / 5 * 4 := by omega
  simp [DecodedCap, hl, h5, this]

theorem DecodeTo_valid (l dest : List Byte) (h0 : l ≠ []) (hv : ∀ s ∈ l, s ∈ encoding)
    (h5 : l.length % 5 = 0) (hd : l.length / 5 * 4 ≤ dest.length) :
    DecodeTo l dest
      = (scanMarker (decodeRef l ++ dest.drop (l.length / 5 * 4)) (l.length / 5 * 4)).map
          (fun r => ⟨r.1, r.2, decodeRef l ++ dest.drop (l.length / 5 * 4)⟩) := by
  have hl : l.length ≠ 0 := fun h => h0 (List.length_eq_zero.mp h)
  unfold DecodeTo
  simp only [DecodedCap_of_mod h0 h5, hl, if_false, Nat.not_lt.mpr hd, ne_eq,
    not_true_eq_false]
  rw [decodeLoop_valid l dest hv h5 hd]
  simp only [Option.bind_eq_bind, Option.some_bind, ne_eq, not_true_eq_false, if_false,
    Option.pure_def]
  rcases scanMarker (decodeRef l ++ dest.drop (l.length / 5 * 4)) (l.length / 5 * 4)
    with _ | ⟨n, err⟩ <;> rfl

theorem scanMarker_all_zero (plain : List Byte) : ∀ (k : Nat),
    (∀ j, j < k → plain[j]? = some 0) →
      scanMarker plain k = some (0, some (InvalidPostfixError 0))
  | 0, _ => rfl
  | k + 1, h => by
    rw [scanMarker, h k (by omega)]
    simp only
    rw [if_pos trivial]
    exact scanMarker_all_zero plain k (fun j hj => h j (by omega))

theorem scanMarker_last (plain : List Byte) (j : Nat) (b : Byte) (hb : plain[j]? = some b)
    (hb0 : b ≠ 0) : ∀ (k : Nat), j < k → (∀ i, j < i → i < k → plain[i]? = some 0) →
      scanMarker plain k
        = some (if b = 1 then (j, none) else (0, some (InvalidPostfixError b)))
  | 0, hk, _ => by omega
  | k + 1, hk, hz => by
    rw [scanMarker]
    by_cases hjk : j = k
    · subst hjk
      rw [hb]
      simp only
      by_cases h1 : b = 1
      · rw [if_pos h1, if_pos h1]
      · rw [if_neg h1, if_neg h1, if_neg hb0]
    · rw [hz k (by omega) (by omega)]
      simp only
      rw [if_pos trivial]
      exact scanMarker_last plain j b hb hb0 k (by omega) (fun i hi hik => hz i hi (by omega))

theorem scanMarker_total (plain : List Byte) : ∀ (k : Nat), k ≤ plain.length →
    ∃ x, scanMarker plain k = some x
  | 0, _ => ⟨_, rfl⟩
  | k + 1, h => by
    obtain ⟨b, hb⟩ : ∃ b, plain[k]? = some b :=
      ⟨plain[k], List.getElem?_eq_getElem (by omega)⟩
    rw [scanMarker, hb]
    simp only
    by_cases h1 : b = 1
    · rw [if_pos h1]; exact ⟨_, rfl⟩
    · rw [if_neg h1]
      by_cases h0 : b = 0
      · rw [if_pos h0]; exact scanMarker_total plain k (by omega)
      · rw [if_neg h0]; exact ⟨_, rfl⟩

/-- C17. Marker scan: for every non-empty encoded input `e` of alphabet symbols whose
length is a multiple of 5, and a destination of at least `cap = DecodedCap(e)`
bytes, the group loop returns no error and `DecodeTo` returns after the scan; with
`B` the first `cap` bytes of the destination after the loop, and `j` the largest
index with `B[j] != 0`: the result is `(j, nil)` if `B[j] = 1`, and
`(0, InvalidPostfixError(B[j]))` otherwise; if every byte of `B` is zero the
result is `(0, InvalidPostfixError(0))`. -/
theorem C17_marker_scan (e dest : List Byte) (hne : e ≠ []) (h5 : e.length % 5 = 0)
    (hv : ∀ s ∈ e, s ∈ encoding) (hd : (DecodedCap e).1 ≤ dest.length) :
    ∃ r B, DecodeTo e dest = some r ∧ decodeLoop e dest = some (none, r.dst)
      ∧ B = r.dst.take (DecodedCap e).1 ∧ B.length = (DecodedCap e).1
      ∧ ((∀ j, j < B.length → B[j]? = some 0)
          → r.n = 0 ∧ r.err = some (InvalidPostfixError 0))
      ∧ (∀ j b, B[j]? = some b → b ≠ 0 → (∀ i, j < i → i < B.length → B[i]? = some 0)
          → (b = 1 → r.n = j ∧ r.err = none)
            ∧ (b ≠ 1 → r.n = 0 ∧ r.err = some (InvalidPostfixError b))) := by
  rw [DecodedCap_of_mod hne h5] at hd ⊢
  simp only at hd ⊢
  have hlen := decodeRef_length e h5
  have htake : (decodeRef e ++ dest.drop (e.length / 5 * 4)).take (e.length / 5 * 4)
      = decodeRef e := List.take_left' hlen
  have hget : ∀ j, j < e.length / 5 * 4 →
      (decodeRef e ++ dest.drop (e.length / 5 * 4))[j]? = (decodeRef e)[j]? :=
    fun j hj => List.getElem?_append_left (by omega)
  have key := DecodeTo_valid e dest hne hv h5 hd
  have hloop := decodeLoop_valid e dest hv h5 hd
  obtain ⟨x, hx⟩ := scanMarker_total (decodeRef e ++ dest.drop (e.length / 5 * 4))
    (e.length / 5 * 4) (by simp only [List.length_append, List.length_drop]; omega)
  rw [hx] at key
  refine ⟨_, decodeRef e, key, hloop, htake.symm, hlen, fun hz => ?_, fun j b hjb hb0 hz => ?_⟩
  · have hs := scanMarker_all_zero (decodeRef e ++ dest.drop (e.length / 5 * 4))
      (e.length / 5 * 4) (fun j hj => by rw [hget j hj]; exact hz j (by omega))
    rw [hx] at hs
    have := Option.some.inj hs
    subst this
    exact ⟨rfl, rfl⟩
  · have hj : j < e.length / 5 * 4 := by
      rw [← hlen]
      exact (List.getElem?_eq_some_iff.mp hjb).1
    have hs := scanMarker_last (decodeRef e ++ dest.drop (e.length / 5 * 4)) j b
      (by rw [hget j hj]; exact hjb) hb0 (e.length / 5 * 4) hj
      (fun i hi hik => by rw [hget i hik]; exact hz i hi (by omega))
    rw [hx] at hs
    have := Option.some.inj hs
    subst this
    constructor
    · intro h1
      rw [if_pos h1]
      exact ⟨rfl, rfl⟩
    · intro h1
      rw [if_neg h1]
      exact ⟨rfl, rfl⟩

/-- C17, at the encoded `"2ls/8"` of `[7]` and a four-byte destination: the loop
writes `B = [7, 1, 0, 0]`, the last non-zero byte is `B[1] = 1`, and the result is
`(1, nil)`. -/
theorem C17_marker_scan_witness :
    ∃ r, DecodeTo [50, 108, 115, 47, 56] [9, 9, 9, 9] = some r
      ∧ r.dst.take 4 = [7, 1, 0, 0] ∧ r.n = 1 ∧ r.err = none := by
  obtain ⟨r, B, hr, hloop, hB, _, _, hlast⟩ :=
    C17_marker_scan [50, 108, 115, 47, 56] [9, 9, 9, 9] (by decide) (by decide)
      (by decide!) (by decide)
  have hl : decodeLoop [50, 108, 115, 47, 56] [9, 9, 9, 9] = some (none, [7, 1, 0, 0]) := by
    decide!
  rw [hl] at hloop
  have hdst : r.dst = [7, 1, 0, 0] := by
    simpa using (Option.some.inj hloop).symm
  have hB' : B = [7, 1, 0, 0] := by
    rw [hB, hdst]; rfl
  subst hB'
  have h := (hlast 1 1 rfl (by decide) (fun i hi hik => by
    simp only [List.length_cons, List.length_nil] at hik
    interval_cases i <;> rfl)).1 rfl
  exact ⟨r, hr, by rw [hdst]; rfl, h.1, h.2⟩

theorem decodeRef_append : ∀ (l g : List Byte), l.length % 5 = 0 →
    decodeRef (l ++ g) = decodeRef l ++ decodeRef g
  | [], g, _ => by simp [decodeRef]
  | [_], _, h => by simp at h
  | [_, _], _, h => by simp at h
  | [_, _, _], _, h => by simp at h
  | [_, _, _, _], _, h => by simp at h
  | s0 :: s1 :: s2 :: s3 :: s4 :: rest, g, h => by
    have hl : (s0 :: s1 :: s2 :: s3 :: s4 :: rest).length = rest.length + 5 := rfl
    rw [hl] at h
    have ih := decodeRef_append rest g (by omega)
    simp only [List.cons_append, decodeRef, List.append_assoc]
    exact congrArg _ ih

theorem scanMarker_congr (a b : List Byte) : ∀ (k : Nat),
    (∀ j, j < k → a[j]? = b[j]?) → scanMarker a k = scanMarker b k
  | 0, _ => rfl
  | k + 1, h => by
    rw [scanMarker, scanMarker, h k (by omega),
      scanMarker_congr a b k (fun j hj => h j (by omega))]

theorem scanMarker_skip (plain : List Byte) (k : Nat) (h : plain[k]? = some 0) :
    scanMarker plain (k + 1) = scanMarker plain k := by
  rw [scanMarker, h]
  simp only
  rw [if_pos trivial, if_neg (by decide)]

theorem scanMarker_zero_block (a rest : List Byte) :
    scanMarker (a ++ [0, 0, 0, 0] ++ rest) (a.length + 4) = scanMarker a a.length := by
  have g : ∀ i, i < 4 → (a ++ [0, 0, 0, 0] ++ rest)[a.length + i]? = some 0 := by
    intro i hi
    rw [List.append_assoc, List.getElem?_append_right (by omega)]
    have : a.length + i - a.length = i := by omega
    rw [this]
    interval_cases i <;> simp
  have e : a.length + 4 = a.length + 3 + 1 := rfl
  rw [e, scanMarker_skip _ _ (g 3 (by decide))]
  have e : a.length + 3 = a.length + 2 + 1 := rfl
  rw [e, scanMarker_skip _ _ (g 2 (by decide))]
  have e : a.length + 2 = a.length + 1 + 1 := rfl
  rw [e, scanMarker_skip _ _ (g 1 (by decide))]
  rw [scanMarker_skip _ _ (g 0 (by decide))]
  exact scanMarker_congr _ _ _ (fun j hj => by
    rw [List.append_assoc, List.getElem?_append_left hj])

/-- C18 as stated fails: `Encode([7])` is `"2ls/8"`; followed by the group `"00000"`,
which decodes to four zero bytes, it is an input of valid length over the alphabet,
and `DecodeTo` succeeds on it with length 1 instead of reporting
`InvalidPostfixError(0)`. -/
theorem C18_zero_block_counterexample :
    Encode [7] = some [50, 108, 115, 47, 56]
      ∧ decodeLoop [48, 48, 48, 48, 48] [1, 1, 1, 1] = some (none, [0, 0, 0, 0])
      ∧ DecodeTo [50, 108, 115, 47, 56, 48, 48, 48, 48, 48] [9, 9, 9, 9, 9, 9, 9, 9]
          = some ⟨1, none, [7, 1, 0, 0, 0, 0, 0, 0]⟩ := by
  decide!

/-- C18, amended. For every encoded input of valid length over the alphabet whose
final 5-symbol group `g` decodes to four zero bytes, `DecodeTo` continues the scan
into the earlier groups and returns what their scan returns: the length and error
of `DecodeTo` on the input without `g` when that is non-empty, and
`(0, InvalidPostfixError(0))` when the input is `g` alone. -/
theorem C18_zero_block (e g dest : List Byte) (h5 : e.length % 5 = 0)
    (hv : ∀ s ∈ e, s ∈ encoding) (hg : g.length = 5) (hvg : ∀ s ∈ g, s ∈ encoding)
    (hz : decodeLoop g [1, 1, 1, 1] = some (none, [0, 0, 0, 0]))
    (hd : (DecodedCap (e ++ g)).1 ≤ dest.length) :
    ∃ r, DecodeTo (e ++ g) dest = some r
      ∧ (e = [] → r.n = 0 ∧ r.err = some (InvalidPostfixError 0))
      ∧ (e ≠ [] → ∃ r', DecodeTo e dest = some r' ∧ r.n = r'.n ∧ r.err = r'.err) := by
  have hne : e ++ g ≠ [] := by
    intro h
    have := congrArg List.length h
    simp only [List.length_append, hg, List.length_nil] at this
    omega
  have hl : (e ++ g).length = e.length + 5 := by rw [List.length_append, hg]
  have h5' : (e ++ g).length % 5 = 0 := by rw [hl]; omega
  have hc : (e ++ g).length / 5 * 4 = e.length / 5 * 4 + 4 := by rw [hl]; omega
  rw [DecodedCap_of_mod hne h5'] at hd
  simp only at hd
  have hv' : ∀ s ∈ e ++ g, s ∈ encoding := fun s hs =>
    (List.mem_append.mp hs).elim (hv s) (hvg s)
  have hgz : decodeRef g = [0, 0, 0, 0] := by
    have := decodeLoop_valid g [1, 1, 1, 1] hvg (by rw [hg]) (by rw [hg]; decide)
    rw [hz, hg] at this
    simpa using (Option.some.inj this).symm
  have hrl := decodeRef_length e h5
  have key := DecodeTo_valid (e ++ g) dest hne hv' h5' hd
  rw [decodeRef_append e g h5, hgz, hc] at key
  have hs := scanMarker_zero_block (decodeRef e) (dest.drop (e.length / 5 * 4 + 4))
  rw [hrl] at hs
  rw [hs] at key
  by_cases he : e = []
  · subst he
    refine ⟨_, key, fun _ => ⟨rfl, rfl⟩, fun h => absurd rfl h⟩
  · have key' := DecodeTo_valid e dest he hv h5 (by omega)
    have hs' : scanMarker (decodeRef e ++ dest.drop (e.length / 5 * 4)) (e.length / 5 * 4)
        = scanMarker (decodeRef e) (e.length / 5 * 4) :=
      scanMarker_congr _ _ _ (fun j hj => List.getElem?_append_left (by omega))
    rw [hs'] at key'
    obtain ⟨x, hx⟩ := scanMarker_total (decodeRef e) (e.length / 5 * 4) (by omega)
    rw [hx] at key key'
    exact ⟨_, key, fun h => absurd h he, fun _ => ⟨_, key', rfl, rfl⟩⟩

/-- C18, amended, at `"2ls/8"` followed by `"00000"` and an eight-byte destination:
the same length 1 and `nil` error as for `"2ls/8"` alone. -/
theorem C18_zero_block_witness :
    ∃ r r', DecodeTo [50, 108, 115, 47, 56, 48, 48, 48, 48, 48] [9, 9, 9, 9, 9, 9, 9, 9]
        = some r
      ∧ DecodeTo [50, 108, 115, 47, 56] [9, 9, 9, 9, 9, 9, 9, 9] = some r'
      ∧ r.n = r'.n ∧ r.err = r'.err := by
  obtain ⟨r, hr, _, h⟩ := C18_zero_block [50, 108, 115, 47, 56] [48, 48, 48, 48, 48]
    [9, 9, 9, 9, 9, 9, 9, 9] (by decide) (by decide!) (by decide) (by decide!) (by decide!)
    (by decide)
  obtain ⟨r', hr', hn, he⟩ := h (by decide)
  exact ⟨r, r', hr, hr', hn, he⟩

/-! ## The leftmost byte outside the alphabet (C19) -/

theorem offending_iff (r : Byte) : offending r = true ↔ r ∉ encoding := by
  simp [offending]

theorem offending_false_iff (r : Byte) : offending r = false ↔ r ∈ encoding := by
  simp [offending]

theorem decodingAt_of_ne_255 {r : Byte} (h : r.val ≠ 255) :
    ∃ m : Byte, decodingAt r = some m ∧ (m.val = 255 ↔ offending r = true) := by
  rcases table_bytes r with h' | h' | h'
  · exact absurd h'.1 h
  · obtain ⟨m, hm, hv, _⟩ := decodingAt_mem h'.2.1
    refine ⟨m, hm, ?_⟩
    rw [offending_iff]
    constructor
    · intro e; omega
    · intro e; exact absurd h'.2.1 e
  · refine ⟨255, h'.2.2, ?_⟩
    rw [offending_iff]
    exact ⟨fun _ => h'.2.1, fun _ => rfl⟩

theorem decodeLoop_group_offending (r0 r1 r2 r3 r4 : Byte) (rest decoded : List Byte)
    (n0 : r0.val ≠ 255) (n1 : r1.val ≠ 255) (n2 : r2.val ≠ 255) (n3 : r3.val ≠ 255)
    (n4 : r4.val ≠ 255) (b : Byte) (hf : [r0, r1, r2, r3, r4].find? offending = some b) :
    decodeLoop (r0 :: r1 :: r2 :: r3 :: r4 :: rest) decoded
      = some (some (InvalidEncodedByteError b), decoded) := by
  obtain ⟨m0, e0, i0⟩ := decodingAt_of_ne_255 n0
  obtain ⟨m1, e1, i1⟩ := decodingAt_of_ne_255 n1
  obtain ⟨m2, e2, i2⟩ := decodingAt_of_ne_255 n2
  obtain ⟨m3, e3, i3⟩ := decodingAt_of_ne_255 n3
  obtain ⟨m4, e4, i4⟩ := decodingAt_of_ne_255 n4
  rw [decodeLoop_cons_some _ _ _ _ _ _ _ _ _ _ _ _ e0 e1 e2 e3 e4]
  rw [List.find?_cons] at hf
  rcases c0 : offending r0 with _ | _
  swap
  · rw [c0] at hf
    rw [if_pos (i0.mpr c0), ← Option.some.inj hf]
  rw [c0] at hf
  rw [if_neg (fun h => by rw [i0.mp h] at c0; exact Bool.noConfusion c0)]
  rw [List.find?_cons] at hf
  rcases c1 : offending r1 with _ | _
  swap
  · rw [c1] at hf
    rw [if_pos (i1.mpr c1), ← Option.some.inj hf]
  rw [c1] at hf
  rw [if_neg (fun h => by rw [i1.mp h] at c1; exact Bool.noConfusion c1)]
  rw [List.find?_cons] at hf
  rcases c2 : offending r2 with _ | _
  swap
  · rw [c2] at hf
    rw [if_pos (i2.mpr c2), ← Option.some.inj hf]
  rw [c2] at hf
  rw [if_neg (fun h => by rw [i2.mp h] at c2; exact Bool.noConfusion c2)]
  rw [List.find?_cons] at hf
  rcases c3 : offending r3 with _ | _
  swap
  · rw [c3] at hf
    rw [if_pos (i3.mpr c3), ← Option.some.inj hf]
  rw [c3] at hf
  rw [if_neg (fun h => by rw [i3.mp h] at c3; exact Bool.noConfusion c3)]
  rw [List.find?_cons] at hf
  rcases c4 : offending r4 with _ | _
  swap
  · rw [c4] at hf
    rw [if_pos (i4.mpr c4), ← Option.some.inj hf]
  rw [c4] at hf
  simp at hf

theorem decodeLoop_group_255 (r0 r1 r2 r3 r4 : Byte) (rest decoded : List Byte)
    (h : (255 : Byte) ∈ [r0, r1, r2, r3, r4]) :
    decodeLoop (r0 :: r1 :: r2 :: r3 :: r4 :: rest) decoded = none := by
  have t : ((255 : Byte).val = 255) := rfl
  simp only [List.mem_cons, List.mem_singleton, List.not_mem_nil, or_false] at h
  apply decodeLoop_cons_none
  rcases h with h | h | h | h | h
  · exact Or.inl (decodingAt_255 (h ▸ t))
  · exact Or.inr (Or.inl (decodingAt_255 (h ▸ t)))
  · exact Or.inr (Or.inr (Or.inl (decodingAt_255 (h ▸ t))))
  · exact Or.inr (Or.inr (Or.inr (Or.inl (decodingAt_255 (h ▸ t)))))
  · exact Or.inr (Or.inr (Or.inr (Or.inr (decodingAt_255 (h ▸ t)))))
theorem decodeLoop_leftmost : ∀ (l dest : List Byte), l.length % 5 = 0 →
    l.length / 5 * 4 ≤ dest.length → (∃ x ∈ l, offending x = true) →
    ∃ b, l.find? offending = some b
      ∧ ((255 : Byte) ∈ (l.drop (5 * (l.findIdx offending / 5))).take 5
          → decodeLoop l dest = none)
      ∧ ((255 : Byte) ∉ (l.drop (5 * (l.findIdx offending / 5))).take 5
          → ∃ dst, decodeLoop l dest = some (some (InvalidEncodedByteError b), dst))
  | [], _, _, _, h => by
    obtain ⟨x, hx, _⟩ := h
    simp at hx
  | [_], _, h, _, _ => by simp at h
  | [_, _], _, h, _, _ => by simp at h
  | [_, _, _], _, h, _, _ => by simp at h
  | [_, _, _, _], _, h, _, _ => by simp at h
  | r0 :: r1 :: r2 :: r3 :: r4 :: rest, dest, h5, hd, hex => by
    have hl : (r0 :: r1 :: r2 :: r3 :: r4 :: rest).length = rest.length + 5 := rfl
    have happ : r0 :: r1 :: r2 :: r3 :: r4 :: rest = [r0, r1, r2, r3, r4] ++ rest := rfl
    rw [hl] at h5 hd
    obtain ⟨d0, d1, d2, d3, tl, rfl⟩ := exists_cons4 dest (by omega)
    rcases hfg : [r0, r1, r2, r3, r4].find? offending with _ | b
    · -- the first group is made of alphabet symbols
      have hval : ∀ x ∈ [r0, r1, r2, r3, r4], x ∈ encoding := fun x hx =>
        (offending_false_iff x).mp (by
          have := List.find?_eq_none.mp hfg x hx
          simpa using this)
      have hnot : ¬ ∃ x ∈ [r0, r1, r2, r3, r4], offending x = true := by
        rintro ⟨x, hx, hp⟩
        exact List.find?_eq_none.mp hfg x hx hp
      have hidx : (r0 :: r1 :: r2 :: r3 :: r4 :: rest).findIdx offending
          = rest.findIdx offending + 5 := by
        rw [happ, List.findIdx_append, if_neg]
        · rfl
        · intro hlt
          exact hnot (List.findIdx_lt_length.mp hlt)
      have hfind : (r0 :: r1 :: r2 :: r3 :: r4 :: rest).find? offending
          = rest.find? offending := by
        rw [happ, List.find?_append, hfg]
        rfl
      have hex' : ∃ x ∈ rest, offending x = true := by
        obtain ⟨x, hx, hp⟩ := hex
        rw [happ, List.mem_append] at hx
        rcases hx with hx | hx
        · exact absurd ⟨x, hx, hp⟩ hnot
        · exact ⟨x, hx, hp⟩
      obtain ⟨b, hb, hpanic, herr⟩ := decodeLoop_leftmost rest tl (by omega)
        (by simp only [List.length_cons] at hd; omega) hex'
      have hdrop : ((r0 :: r1 :: r2 :: r3 :: r4 :: rest).drop
            (5 * (((r0 :: r1 :: r2 :: r3 :: r4 :: rest).findIdx offending) / 5)))
          = rest.drop (5 * (rest.findIdx offending / 5)) := by
        rw [hidx]
        have : 5 * ((rest.findIdx offending + 5) / 5) = 5 * (rest.findIdx offending / 5) + 5 := by
          omega
        rw [this]
        rfl
      obtain ⟨v, hv⟩ := decodeLoop_valid_cons r0 r1 r2 r3 r4 rest d0 d1 d2 d3 tl
        (hval r0 (by simp)) (hval r1 (by simp)) (hval r2 (by simp)) (hval r3 (by simp))
        (hval r4 (by simp))
      rw [hdrop, hfind, hv]
      refine ⟨b, hb, fun h => ?_, fun h => ?_⟩
      · rw [hpanic h]; rfl
      · obtain ⟨dst, hdst⟩ := herr h
        rw [hdst]
        exact ⟨_, rfl⟩
    · -- the first group holds the leftmost offending byte
      have hexg : ∃ x ∈ [r0, r1, r2, r3, r4], offending x = true :=
        ⟨b, List.mem_of_find?_eq_some hfg, List.find?_some hfg⟩
      have hidx : (r0 :: r1 :: r2 :: r3 :: r4 :: rest).findIdx offending < 5 := by
        rw [happ, List.findIdx_append, if_pos (List.findIdx_lt_length.mpr hexg)]
        exact List.findIdx_lt_length.mpr hexg
      have hfind : (r0 :: r1 :: r2 :: r3 :: r4 :: rest).find? offending = some b := by
        rw [happ, List.find?_append, hfg]
        rfl
      have hdrop : ((r0 :: r1 :: r2 :: r3 :: r4 :: rest).drop
            (5 * (((r0 :: r1 :: r2 :: r3 :: r4 :: rest).findIdx offending) / 5))).take 5
          = [r0, r1, r2, r3, r4] := by
        have : 5 * (((r0 :: r1 :: r2 :: r3 :: r4 :: rest).findIdx offending) / 5) = 0 := by
          omega
        rw [this]
        rfl
      rw [hdrop]
      refine ⟨b, hfind, fun h => decodeLoop_group_255 _ _ _ _ _ _ _ h, fun h => ⟨d0 :: d1 :: d2 :: d3 :: tl, ?_⟩⟩
      have t : ((255 : Byte).val = 255) := rfl
      have ne : ∀ x ∈ [r0, r1, r2, r3, r4], x.val ≠ 255 := by
        intro x hx hv
        have : x = 255 := Fin.ext (hv.trans t.symm)
        exact h (this ▸ hx)
      exact decodeLoop_group_offending r0 r1 r2 r3 r4 rest _ (ne r0 (by simp)) (ne r1 (by simp))
        (ne r2 (by simp)) (ne r3 (by simp)) (ne r4 (by simp)) b hfg

/-- C19. Leftmost offending byte: for every encoded input `e` whose length is a
positive multiple of 5 and that holds a byte outside the alphabet, with a sufficient
destination, let `b` be the leftmost such byte. If the 5-symbol group of `b` holds
no byte 0xFF, `DecodeTo` returns 0 and `InvalidEncodedByteError(b)`; if it holds a
0xFF (before or after `b`, or `b` itself), `DecodeTo` panics on the lookup
`decoding[0xFF]`. -/
theorem C19_leftmost_offending (e dest : List Byte) (hpos : 0 < e.length)
    (h5 : e.length % 5 = 0) (hd : (DecodedCap e).1 ≤ dest.length)
    (hinv : ∃ x ∈ e, x ∉ encoding) :
    ∃ b, e.find? offending = some b ∧ b ∉ encoding
      ∧ ((255 : Byte) ∈ (e.drop (5 * (e.findIdx offending / 5))).take 5
          → DecodeTo e dest = none)
      ∧ ((255 : Byte) ∉ (e.drop (5 * (e.findIdx offending / 5))).take 5
          → ∃ dst, DecodeTo e dest = some ⟨0, some (InvalidEncodedByteError b), dst⟩) := by
  have hne : e ≠ [] := fun h => by rw [h] at hpos; exact absurd hpos (by decide)
  have h0 : e.length ≠ 0 := by omega
  rw [DecodedCap_of_mod hne h5] at hd
  simp only at hd
  obtain ⟨b, hb, hpanic, herr⟩ := decodeLoop_leftmost e dest h5 hd
    (by
      obtain ⟨x, hx, hn⟩ := hinv
      exact ⟨x, hx, (offending_iff x).mpr hn⟩)
  refine ⟨b, hb, (offending_iff b).mp (List.find?_some hb), fun h => ?_, fun h => ?_⟩
  · unfold DecodeTo
    simp only [DecodedCap_of_mod hne h5, h0, if_false, Nat.not_lt.mpr hd, ne_eq,
      not_true_eq_false]
    rw [hpanic h]
    rfl
  · obtain ⟨dst, hdst⟩ := herr h
    unfold DecodeTo
    simp only [DecodedCap_of_mod hne h5, h0, if_false, Nat.not_lt.mpr hd, ne_eq,
      not_true_eq_false]
    rw [hdst]
    exact ⟨dst, by simp⟩

/-- C19, at the failing input: in `[' ', 0xFF, '0', '0', '0']` the leftmost byte
outside the alphabet is the space, and `DecodeTo` panics instead of returning
`InvalidEncodedByteError(' ')`. -/
theorem C19_leftmost_offending_witness :
    ([32, 255, 48, 48, 48] : List Byte).find? offending = some 32
      ∧ DecodeTo [32, 255, 48, 48, 48] [0, 0, 0, 0] = none := by
  obtain ⟨b, hb, _, hpanic, _⟩ := C19_leftmost_offending [32, 255, 48, 48, 48] [0, 0, 0, 0]
    (by decide) (by decide) (by decide) ⟨32, by simp, by decide!⟩
  have hf : ([32, 255, 48, 48, 48] : List Byte).find? offending = some 32 := by decide!
  exact ⟨hf, hpanic (by decide!)⟩

/-! ## Wrapping arithmetic of the decoder (C20) -/

theorem specBigEndian_bytesOf (v : Nat) (hv : v < 2 ^ 32) : specBigEndian (bytesOf v) = v := by
  simp only [specBigEndian, bytesOf, List.foldl_cons, List.foldl_nil, Fin.ofNat, Fin.val_mk,
    Nat.shiftRight_eq_div_pow]
  omega

theorem encodingAt_some {d : Nat} {s : Byte} (h : encodingAt d = some s) :
    d < 85 ∧ s = sym d := by
  have hd : d < 85 := by
    have := (List.getElem?_eq_some_iff.mp h).1
    have hl : encoding.length = 85 := by decide!
    omega
  refine ⟨hd, ?_⟩
  rw [encodingAt_sym hd] at h
  exact (Option.some.inj h).symm

theorem dig_sym {d : Nat} (h : d < 85) : dig (sym d) = d := by
  obtain ⟨m, hm, hv⟩ := decodingAt_sym_ne_255 h
  simp only [dig, hm, Option.getD_some, hv]

/-- C20. Decoder arithmetic wraps modulo 2^32: for every group of five alphabet
symbols `encoding[d0], ..., encoding[d4]` at the head of the loop of `DecodeTo`, the
loop does not reject the group: it writes the four bytes whose big-endian value is
`v = (d0*85^4 + d1*85^3 + d2*85^2 + d3*85 + d4) mod 2^32` and goes on with the
rest; the group that `EncodeTo` writes for `v` (the canonical group) makes the loop
write the same four bytes. -/
theorem C20_decoder_wraps (d0 d1 d2 d3 d4 : Nat) (s0 s1 s2 s3 s4 : Byte)
    (h0 : encodingAt d0 = some s0) (h1 : encodingAt d1 = some s1)
    (h2 : encodingAt d2 = some s2) (h3 : encodingAt d3 = some s3)
    (h4 : encodingAt d4 = some s4) (rest : List Byte) (x0 x1 x2 x3 : Byte) (tl : List Byte) :
    ∃ b0 b1 b2 b3 : Byte,
      specBigEndian [b0, b1, b2, b3]
          = (d0 * 85 ^ 4 + d1 * 85 ^ 3 + d2 * 85 ^ 2 + d3 * 85 + d4) % 2 ^ 32
        ∧ decodeLoop (s0 :: s1 :: s2 :: s3 :: s4 :: rest) (x0 :: x1 :: x2 :: x3 :: tl)
            = (decodeLoop rest tl).map (fun r => (r.1, b0 :: b1 :: b2 :: b3 :: r.2))
        ∧ ∃ c, putGroup [0, 0, 0, 0, 0]
                ((d0 * 85 ^ 4 + d1 * 85 ^ 3 + d2 * 85 ^ 2 + d3 * 85 + d4) % 2 ^ 32) = some c
            ∧ decodeLoop (c ++ rest) (x0 :: x1 :: x2 :: x3 :: tl)
                = (decodeLoop rest tl).map (fun r => (r.1, b0 :: b1 :: b2 :: b3 :: r.2)) := by
  obtain ⟨k0, rfl⟩ := encodingAt_some h0
  obtain ⟨k1, rfl⟩ := encodingAt_some h1
  obtain ⟨k2, rfl⟩ := encodingAt_some h2
  obtain ⟨k3, rfl⟩ := encodingAt_some h3
  obtain ⟨k4, rfl⟩ := encodingAt_some h4
  have hv : (d0 * 85 ^ 4 + d1 * 85 ^ 3 + d2 * 85 ^ 2 + d3 * 85 + d4) % 2 ^ 32 < 2 ^ 32 :=
    Nat.mod_lt _ (by decide)
  have hg : groupValue d0 d1 d2 d3 d4
      = (d0 * 85 ^ 4 + d1 * 85 ^ 3 + d2 * 85 ^ 2 + d3 * 85 + d4) % 2 ^ 32 := by
    rw [groupValue_eq_mod]
    norm_num
  have hloop := decodeLoop_valid_group (sym d0) (sym d1) (sym d2) (sym d3) (sym d4) rest
    x0 x1 x2 x3 tl (sym_mem k0) (sym_mem k1) (sym_mem k2) (sym_mem k3) (sym_mem k4)
  rw [dig_sym k0, dig_sym k1, dig_sym k2, dig_sym k3, dig_sym k4, hg] at hloop
  have hcan := decodeLoop_group _ hv rest x0 x1 x2 x3 tl
  have hb := specBigEndian_bytesOf _ hv
  generalize (d0 * 85 ^ 4 + d1 * 85 ^ 3 + d2 * 85 ^ 2 + d3 * 85 + d4) % 2 ^ 32 = v
    at hloop hcan hb ⊢
  exact ⟨_, _, _, _, hb, hloop, groupSymbols v, putGroup_cons _ _ _ _ _ _ _, hcan⟩

/-- C20, at the group `"#####"` (five digits 84, value 85^5 - 1 >= 2^32): the loop
writes `[8, 120, 14, 196]`, the big-endian bytes of `(85^5 - 1) mod 2^32 =
142085828`. -/
theorem C20_decoder_wraps_witness :
    decodeLoop [35, 35, 35, 35, 35] [0, 0, 0, 0] = some (none, [8, 120, 14, 196])
      ∧ specBigEndian [8, 120, 14, 196] = 142085828
      ∧ (85 ^ 5 - 1) % 2 ^ 32 = 142085828 ∧ 2 ^ 32 ≤ 85 ^ 5 - 1 := by
  obtain ⟨b0, b1, b2, b3, hb, hl, _⟩ := C20_decoder_wraps 84 84 84 84 84 35 35 35 35 35
    (by decide!) (by decide!) (by decide!) (by decide!) (by decide!) [] 0 0 0 0 []
  have hl' : decodeLoop [35, 35, 35, 35, 35] [0, 0, 0, 0] = some (none, [8, 120, 14, 196]) := by
    decide!
  rw [hl'] at hl
  simp only [decodeLoop, Option.map_some', Option.some.injEq, Prod.mk.injEq, true_and,
    List.cons.injEq, and_true] at hl
  obtain ⟨rfl, rfl, rfl, rfl⟩ := hl
  exact ⟨hl', hb.trans (by norm_num), by norm_num, by norm_num⟩

end Z85
